import Mathlib

set_option maxRecDepth 100000

/-!
Verification of the planner_pal deadline-extraction engine
(src/backend/extractor.py) and the event store (src/backend/models.py),
as a shallow embedding over Lean lists of characters.

Conventions of the embedding:
* Python strings are `String` / `List Char`; character classes (`\d`, `\s`,
  `\w`) are modelled over their ASCII content, which covers every character
  the patterns of this program can commit to (the Python classes are
  Unicode-aware supersets that behave identically on these inputs).
* Python exceptions that escape a function are `Except.error ()`; the one
  caught exception (the per-date `parser.parse` guard) is a skipped match.
* `dateutil.parser.parse` is only ever applied to strings produced by the
  program's own regexes (`DATE_RE` matches, optionally followed by a
  `TIME_RE` match); on that fixed grammar it deterministically yields the
  named month/day/year and the 12-hour-adjusted time, failing exactly when
  the calendar date or the clock time is out of range.  The embedding
  models it on that grammar.
-/

/-- ASCII decimal digit: the content of Python regex class `\d` here. -/
def isDigitC (c : Char) : Bool := '0' ≤ c && c ≤ '9'

/-- Whitespace: the content of Python regex class `\s` / `str.strip`. -/
def isSpaceC (c : Char) : Bool :=
  c == ' ' || c == '\t' || c == '\n' || c == '\r' || c == '\x0b' || c == '\x0c'

/-- Word character, the content of Python regex class `\w` (for `\b`). -/
def isWordC (c : Char) : Bool := c.isAlphanum || c == '_'

/-- ASCII lowering, the content of `str.lower` / `re.IGNORECASE` here. -/
def lowerC (c : Char) : Char := c.toLower

/-- extractor.py line 42: replace en dash and em dash by the ASCII hyphen. -/
def dashMap (c : Char) : Char := if c = '–' ∨ c = '—' then '-' else c

/-- extractor.py line 44: the emoji / symbol ranges that are blanked out. -/
def isEmojiC (c : Char) : Bool :=
  ('☀' ≤ c && c ≤ '➿') || (Char.ofNat 0x1F300 ≤ c && c ≤ Char.ofNat 0x1FAFF)

/-- extractor.py line 44: each emoji-range character becomes one space. -/
def emojiMap (c : Char) : Char := if isEmojiC c then ' ' else c

/-- extractor.py line 46, `re.sub(r"\s+", " ", txt)`: every maximal run of
whitespace becomes a single space.  `inRun` records whether the previous
character belonged to a whitespace run already replaced. -/
def collapseGo : Bool → List Char → List Char
  | _, [] => []
  | inRun, c :: cs =>
    if isSpaceC c then
      if inRun then collapseGo true cs else ' ' :: collapseGo true cs
    else c :: collapseGo false cs

def collapseWS (l : List Char) : List Char := collapseGo false l

/-- Remove leading characters satisfying `p` (left half of `str.strip`). -/
def stripHeadBy (p : Char → Bool) (l : List Char) : List Char := l.dropWhile p

/-- Remove trailing characters satisfying `p` (right half of `str.strip`). -/
def stripTailBy (p : Char → Bool) : List Char → List Char
  | [] => []
  | c :: cs =>
    let r := stripTailBy p cs
    if r = [] && p c then [] else c :: r

/-- Python `str.strip(chars)`: drop characters satisfying `p` at both ends. -/
def stripBothBy (p : Char → Bool) (l : List Char) : List Char :=
  stripTailBy p (stripHeadBy p l)

/-- Python `str.strip()` on a character list. -/
def stripWS (l : List Char) : List Char := stripBothBy isSpaceC l

/-- extractor.py `clean_text`, on the character list. -/
def cleanL (l : List Char) : List Char :=
  stripWS (collapseWS ((l.map dashMap).map emojiMap))

/-- extractor.py lines 27-47, `clean_text`: dash folding, emoji blanking,
whitespace collapse, strip. -/
def clean_text (raw : String) : String := String.mk (cleanL raw.data)

/-! ## Section-heading erasure (extractor.py lines 13-16, 97) -/

/-- Case-insensitive literal match of `pat` at the head of `l`; returns the
remaining characters on success. -/
def matchCI : List Char → List Char → Option (List Char)
  | [], l => some l
  | _ :: _, [] => none
  | p :: ps, c :: cs => if lowerC c = lowerC p then matchCI ps cs else none

/-- After a matched keyword, `\b` holds iff the next character (if any) is
not a word character (every keyword here ends in a letter). -/
def endBoundary : List Char → Bool
  | [] => true
  | c :: _ => !isWordC c

/-- The six section headings of `IGNORE_SECTIONS_RE`, in alternation order. -/
def ignorePhrases : List (List Char) :=
  ["Course Description".data, "Learning Outcomes".data, "Late Policy".data,
   "Office Hours".data, "Resources".data, "Academic Integrity".data]

/-- Try each heading in alternation order at the current position; the
leading `\b` (previous character not a word character) is checked by the
caller, the trailing `\b` here. -/
def tryIgnorePhrase (l : List Char) : Option (List Char) :=
  ignorePhrases.findSome? fun p =>
    (matchCI p l).bind fun r => if endBoundary r then some r else none

theorem matchCI_length {p l r : List Char} (h : matchCI p l = some r) :
    r.length + p.length = l.length := by
  induction p generalizing l with
  | nil => simp [matchCI] at h; simp [h]
  | cons a ps ih =>
    cases l with
    | nil => simp [matchCI] at h
    | cons c cs =>
      simp only [matchCI] at h
      split at h
      · have := ih h
        simp only [List.length_cons]
        omega
      · exact absurd h (by simp)

theorem matchCI_append {p l r : List Char} (h : matchCI p l = some r) :
    ∃ s, s ++ r = l ∧ s.length = p.length := by
  induction p generalizing l with
  | nil => simp [matchCI] at h; exact ⟨[], by simp [h]⟩
  | cons a ps ih =>
    cases l with
    | nil => simp [matchCI] at h
    | cons c cs =>
      simp only [matchCI] at h
      split at h
      · obtain ⟨s, hs, hl⟩ := ih h
        exact ⟨c :: s, by simp [hs], by simp [hl]⟩
      · exact absurd h (by simp)

theorem tryIgnorePhrase_length {l r : List Char} (h : tryIgnorePhrase l = some r) :
    r.length < l.length := by
  unfold tryIgnorePhrase at h
  obtain ⟨p, hp, hf⟩ := List.exists_of_findSome?_eq_some h
  have hm : ∃ r', matchCI p l = some r' ∧ r' = r := by
    cases hmc : matchCI p l with
    | none => rw [hmc] at hf; simp at hf
    | some r' =>
      rw [hmc] at hf
      simp only [Option.some_bind] at hf
      split at hf
      · exact ⟨r', rfl, by simpa using hf⟩
      · simp at hf
  obtain ⟨r', hr', rfl⟩ := hm
  have hlen := matchCI_length hr'
  have hpos : 0 < p.length := by
    fin_cases hp <;> simp
  omega

/-- `IGNORE_SECTIONS_RE.sub(" ", ...)`: scan left to right; at each position
whose previous character is not a word character, replace a heading match
(with a trailing boundary) by one space and continue after it.  `prevW`
carries the word-character status of the previous character of the
original text (the re module computes `\b` on the original text). -/
def ignoreSubGo : Bool → Nat → List Char → List Char
  | _, _, [] => []
  | _, Nat.succ skip, c :: cs => ignoreSubGo (isWordC c) skip cs
  | prevW, 0, c :: cs =>
    if prevW then c :: ignoreSubGo (isWordC c) 0 cs
    else
      match tryIgnorePhrase (c :: cs) with
      | some rest => ' ' :: ignoreSubGo true ((c :: cs).length - rest.length - 1) cs
      | none => c :: ignoreSubGo (isWordC c) 0 cs

/-- extractor.py line 97: erase the ignored section headings. -/
def ignoreSub (l : List Char) : List Char := ignoreSubGo false 0 l

/-! ## Category classification (extractor.py lines 49-74, models.py line 12) -/

/-- models.py line 12: the allowed event types. -/
def ALLOWED_TYPES : List String :=
  ["Lab", "Assignment", "Exam", "Midterm", "Quiz", "Project", "Other"]

/-- `re.search(r"\b w \b", l)`: the word occurs with boundaries on both
sides (the search text is already lowercased and the keywords are letters,
so the leading boundary is: previous character not a word character). -/
def containsWordGo (w : List Char) (prevW : Bool) : List Char → Bool
  | [] => false
  | c :: cs =>
    (!prevW &&
      (match matchCI w (c :: cs) with
       | some r => endBoundary r
       | none => false)) ||
    containsWordGo w (isWordC c) cs

/-- `re.search` of a doubly-bounded keyword. -/
def containsWord (w : List Char) (l : List Char) : Bool := containsWordGo w false l

/-- `re.search(r"\b w", l)`: leading boundary only (the `\bproject` branch
of line 71). -/
def containsHeadWordGo (w : List Char) (prevW : Bool) : List Char → Bool
  | [] => false
  | c :: cs =>
    (!prevW && (matchCI w (c :: cs)).isSome) || containsHeadWordGo w (isWordC c) cs

def containsHeadWord (w : List Char) (l : List Char) : Bool :=
  containsHeadWordGo w false l

/-- `re.search(r"w \b", l)`: trailing boundary only (the `report\b` branch
of line 71). -/
def containsTailWord (w : List Char) : List Char → Bool
  | [] => false
  | c :: cs =>
    (match matchCI w (c :: cs) with
     | some r => endBoundary r
     | none => false) ||
    containsTailWord w cs

/-- Bare substring search (the `presentation` branch of line 71, which has
no boundary at all in the pattern `\bproject|presentation|report\b`). -/
def containsSub (w : List Char) : List Char → Bool
  | [] => false
  | c :: cs => (matchCI w (c :: cs)).isSome || containsSub w cs

/-- extractor.py lines 49-74, `guess_event_type`: first-match-wins keyword
classification over the lowercased title.  Note the precedence of line 71:
`\bproject|presentation|report\b` bounds only the start of "project" and
only the end of "report", and "presentation" not at all. -/
def guess_event_type (title : String) : String :=
  let t := title.data.map lowerC
  if containsWord "midterm".data t then "Midterm"
  else if containsWord "final".data t || containsWord "exam".data t ||
      containsWord "test".data t then "Exam"
  else if containsWord "quiz".data t then "Quiz"
  else if containsWord "lab".data t then "Lab"
  else if containsWord "assignment".data t || containsWord "hw".data t ||
      containsWord "homework".data t then "Assignment"
  else if containsHeadWord "project".data t || containsSub "presentation".data t ||
      containsTailWord "report".data t then "Project"
  else "Other"

example : guess_event_type "projector" = "Project" := by decide
example : guess_event_type "Midterm Exam" = "Midterm" := by decide
example : guess_event_type "finals week" = "Other" := by decide
example : guess_event_type "" = "Other" := by decide
example : guess_event_type "misreport" = "Project" := by decide
example : guess_event_type "projects" = "Project" := by decide
example : guess_event_type "HW 3" = "Assignment" := by decide

/-! ## Date scanning (extractor.py lines 19-22, 103) -/

/-- The parsed components of a `DATE_RE` match. -/
structure DateParts where
  mon : Nat
  day : Nat
  year : Nat
deriving Repr, DecidableEq

/-- `MONTH_RE` alternatives in regex order; within one month the greedy
optional tail makes the longer form try first. -/
def monthTable : List (List Char × Nat) :=
  [("january".data, 1), ("jan".data, 1), ("february".data, 2), ("feb".data, 2),
   ("march".data, 3), ("mar".data, 3), ("april".data, 4), ("apr".data, 4),
   ("may".data, 5), ("june".data, 6), ("jun".data, 6), ("july".data, 7),
   ("jul".data, 7), ("august".data, 8), ("aug".data, 8),
   ("september".data, 9), ("sept".data, 9), ("sep".data, 9),
   ("october".data, 10), ("oct".data, 10), ("november".data, 11),
   ("nov".data, 11), ("december".data, 12), ("dec".data, 12)]

/-- Month candidates at the current position, in backtracking order. -/
def monthCands (l : List Char) : List (Nat × List Char) :=
  monthTable.filterMap fun pm => (matchCI pm.1 l).map fun r => (pm.2, r)

/-- `\s+`: at least one whitespace character, consumed greedily (the
following atom is a digit, so no shorter run can succeed). -/
def spaces1 : List Char → Option (List Char)
  | [] => none
  | c :: cs => if isSpaceC c then some (cs.dropWhile isSpaceC) else none

/-- Numeric value of a digit character. -/
def digitVal (c : Char) : Nat := c.toNat - 48

/-- `(?:st|nd|rd|th)?` after the day, case-insensitively, greedy: the
consumed variant is tried before the empty one. -/
def suffixOpt (l : List Char) : List (List Char) :=
  match (["st".data, "nd".data, "rd".data, "th".data].findSome? fun s => matchCI s l) with
  | some r => [r, l]
  | none => [l]

/-- `\d{1,2}(?:st|nd|rd|th)?`: day-value candidates in backtracking order
(two digits before one, suffix before none). -/
def dayCands : List Char → List (Nat × List Char)
  | [] => []
  | [a] => if isDigitC a then [(digitVal a, [])] else []
  | a :: b :: rest =>
    if isDigitC a then
      (if isDigitC b then (suffixOpt rest).map fun r => (10 * digitVal a + digitVal b, r)
       else []) ++
      (suffixOpt (b :: rest)).map fun r => (digitVal a, r)
    else []

/-- `\d{4}`: exactly four digit characters (further digits are simply not
part of the match). -/
def year4 : List Char → Option (Nat × List Char)
  | a :: b :: c :: d :: rest =>
    if isDigitC a && isDigitC b && isDigitC c && isDigitC d then
      some (1000 * digitVal a + 100 * digitVal b + 10 * digitVal c + digitVal d, rest)
    else none
  | _ => none

/-- `,?\s+\d{4}`: optional comma (tried with the comma first), mandatory
whitespace, then the year. -/
def afterDay (l : List Char) : Option (Nat × List Char) :=
  match l with
  | ',' :: cs =>
    match (spaces1 cs).bind year4 with
    | some r => some r
    | none => (spaces1 l).bind year4
  | _ => (spaces1 l).bind year4

/-- `DATE_RE` at the current position: month, `\s+`, day with optional
ordinal suffix, `,?\s+`, four-digit year.  Returns the components and the
rest of the text after the match. -/
def matchDateAt (l : List Char) : Option (DateParts × List Char) :=
  (monthCands l).findSome? fun mr =>
    (spaces1 mr.2).bind fun r2 =>
      (dayCands r2).findSome? fun dr =>
        (afterDay dr.2).map fun yr => (⟨mr.1, dr.1, yr.1⟩, yr.2)

theorem spaces1_length {l r : List Char} (h : spaces1 l = some r) :
    r.length < l.length := by
  cases l with
  | nil => simp [spaces1] at h
  | cons c cs =>
    simp only [spaces1] at h
    split at h
    · cases h
      have := List.Sublist.length_le (List.dropWhile_sublist (l := cs) (p := isSpaceC))
      simp only [List.length_cons]
      omega
    · exact absurd h (by simp)

theorem suffixOpt_length {l r : List Char} (h : r ∈ suffixOpt l) :
    r.length ≤ l.length := by
  unfold suffixOpt at h
  split at h
  · rename_i r' hr'
    obtain ⟨s, hs, hf⟩ := List.exists_of_findSome?_eq_some hr'
    have := matchCI_length hf
    simp only [List.mem_cons, List.not_mem_nil, or_false] at h
    rcases h with rfl | rfl
    · omega
    · omega
  · simp only [List.mem_cons, List.not_mem_nil, or_false] at h
    rw [h]

theorem dayCands_length {l : List Char} {d : Nat} {r : List Char}
    (h : (d, r) ∈ dayCands l) : r.length < l.length := by
  match l with
  | [] => simp [dayCands] at h
  | [a] =>
    simp only [dayCands] at h
    split at h <;> simp_all
  | a :: b :: rest =>
    simp only [dayCands] at h
    split at h
    · rw [List.mem_append] at h
      rcases h with h | h
      · split at h
        · obtain ⟨r', hr', heq⟩ := List.mem_map.mp h
          have := suffixOpt_length hr'
          cases heq
          simp only [List.length_cons]
          omega
        · simp at h
      · obtain ⟨r', hr', heq⟩ := List.mem_map.mp h
        have := suffixOpt_length hr'
        cases heq
        simp only [List.length_cons] at *
        omega
    · simp at h

theorem year4_length {l : List Char} {y : Nat} {r : List Char}
    (h : year4 l = some (y, r)) : r.length < l.length := by
  unfold year4 at h
  split at h
  · split at h
    · cases h; simp; omega
    · exact absurd h (by simp)
  · exact absurd h (by simp)

theorem afterDay_length {l : List Char} {y : Nat} {r : List Char}
    (h : afterDay l = some (y, r)) : r.length < l.length := by
  have sub : ∀ m : List Char, (spaces1 m).bind year4 = some (y, r) →
      m.length ≤ l.length → r.length < l.length := by
    intro m hm hle
    cases hs : spaces1 m with
    | none => rw [hs] at hm; simp at hm
    | some r1 =>
      rw [hs] at hm
      simp only [Option.some_bind] at hm
      have h1 := spaces1_length hs
      have h2 := year4_length hm
      omega
  unfold afterDay at h
  split at h
  · rename_i cs
    split at h
    · rename_i r' hr'
      cases h
      exact sub cs hr' (by simp)
    · exact sub _ h (by omega)
  · exact sub _ h (by omega)

theorem matchDateAt_length {l : List Char} {dp : DateParts} {r : List Char}
    (h : matchDateAt l = some (dp, r)) : r.length < l.length := by
  unfold matchDateAt at h
  obtain ⟨mr, hmr, hf⟩ := List.exists_of_findSome?_eq_some h
  obtain ⟨pm, hpm, hpf⟩ := List.mem_filterMap.mp hmr
  cases hmc : matchCI pm.1 l with
  | none => rw [hmc] at hpf; simp at hpf
  | some rm =>
    rw [hmc] at hpf
    simp only [Option.map_some'] at hpf
    cases hpf
    have hml : rm.length ≤ l.length := by have := matchCI_length hmc; omega
    cases hsp : spaces1 rm with
    | none => rw [hsp] at hf; simp at hf
    | some r2 =>
      rw [hsp] at hf
      simp only [Option.some_bind] at hf
      have h2 := spaces1_length hsp
      obtain ⟨dr, hdr, hdf⟩ := List.exists_of_findSome?_eq_some hf
      cases had : afterDay dr.2 with
      | none => rw [had] at hdf; simp at hdf
      | some yr =>
        rw [had] at hdf
        simp only [Option.map_some'] at hdf
        cases hdf
        have h3 : dr.2.length < r2.length := dayCands_length (l := r2) (by exact hdr)
        have h4 := afterDay_length (l := dr.2) (y := yr.1) (r := yr.2) (by simp [had])
        omega

/-- `DATE_RE.finditer`: scan every position left to right; record each
non-overlapping match as (start, end, components) and continue after it
(`skip` counts positions still covered by the previous match). -/
def dateScanGo : Nat → List Char → Nat → List (Nat × Nat × DateParts)
  | _, [], _ => []
  | Nat.succ skip, _ :: cs, pos => dateScanGo skip cs (pos + 1)
  | 0, c :: cs, pos =>
    match matchDateAt (c :: cs) with
    | some (dp, rest) =>
      (pos, pos + ((c :: cs).length - rest.length), dp) ::
        dateScanGo ((c :: cs).length - rest.length - 1) cs (pos + 1)
    | none => dateScanGo 0 cs (pos + 1)

def dateScan (l : List Char) (pos : Nat) : List (Nat × Nat × DateParts) :=
  dateScanGo 0 l pos

example : dateScan "March 5, 2024".data 0 = [(0, 13, ⟨3, 5, 2024⟩)] := by decide
example : dateScan "Jan. 5, 2024".data 0 = [] := by decide
example : dateScan "HW due Jan 5th 2024!".data 0 = [(7, 19, ⟨1, 5, 2024⟩)] := by decide
example : dateScan "grammar 5, 2024".data 0 = [(4, 15, ⟨3, 5, 2024⟩)] := by decide
example : dateScan "March 5,2024".data 0 = [] := by decide
example : dateScan "Sept 31, 2024".data 0 = [(0, 13, ⟨9, 31, 2024⟩)] := by decide
example : ignoreSub "Read Office Hours HW".data = "Read   HW".data := by decide
example : ignoreSub "xOffice Hours and Office Hoursx".data =
  "xOffice Hours and Office Hoursx".data := by decide
example : ignoreSub "OFFICE HOURS: yo".data = " : yo".data := by decide
example : ignoreSub "resourcesful".data = "resourcesful".data := by decide

/-! ## Time matching (extractor.py lines 23-25, 138-158) -/

/-- A `TIME_RE` match: 12-hour-clock components as written. -/
structure TimeM where
  h : Nat
  m : Nat
  pm : Bool
deriving Repr, DecidableEq

/-- `(?:AM|PM)` case-insensitively; returns the meridian and the rest. -/
def ampmAt : List Char → Option (Bool × List Char)
  | a :: b :: r =>
    if lowerC a = 'a' ∧ lowerC b = 'm' then some (false, r)
    else if lowerC a = 'p' ∧ lowerC b = 'm' then some (true, r)
    else none
  | _ => none

/-- `\s?(?:AM|PM)`: greedy optional single whitespace, then the meridian. -/
def spAmpm (l : List Char) : Option (Bool × List Char) :=
  match l with
  | c :: cs =>
    if isSpaceC c then
      match ampmAt cs with
      | some r => some r
      | none => ampmAt l
    else ampmAt l
  | [] => none

/-- `\d{1,2}` hour candidates in backtracking order (two digits first). -/
def hourCands : List Char → List (Nat × List Char)
  | [] => []
  | [a] => if isDigitC a then [(digitVal a, [])] else []
  | a :: b :: rest =>
    if isDigitC a then
      (if isDigitC b then [(10 * digitVal a + digitVal b, rest)] else []) ++
        [(digitVal a, b :: rest)]
    else []

/-- `:\d{2}`: the colon and exactly two minute digits. -/
def colonMin : List Char → Option (Nat × List Char)
  | ':' :: c :: d :: r =>
    if isDigitC c && isDigitC d then some (10 * digitVal c + digitVal d, r) else none
  | _ => none

/-- `TIME_RE` (`\d{1,2}:\d{2}\s?(?:AM|PM)`) at the current position. -/
def matchTimeAt (l : List Char) : Option (TimeM × List Char) :=
  (hourCands l).findSome? fun hr =>
    (colonMin hr.2).bind fun mr =>
      (spAmpm mr.2).map fun pr => (⟨hr.1, mr.1, pr.1⟩, pr.2)

/-- `RANGE_RE` at the current position: a time, `\s*`, a hyphen or dash
variant, `\s*`, a second time.  The program then splits the matched text on
the dash and strips the two halves, which recovers exactly these two
component times. -/
def matchRangeAt (l : List Char) : Option (TimeM × TimeM) :=
  (matchTimeAt l).bind fun t1 =>
    match (t1.2.dropWhile isSpaceC) with
    | d :: r3 =>
      if d = '-' ∨ d = '–' ∨ d = '—' then
        (matchTimeAt (r3.dropWhile isSpaceC)).map fun t2 => (t1.1, t2.1)
      else none
    | [] => none

/-- `RANGE_RE.search`: leftmost match anywhere in the text. -/
def searchRange : List Char → Option (TimeM × TimeM)
  | [] => none
  | c :: cs =>
    match matchRangeAt (c :: cs) with
    | some r => some r
    | none => searchRange cs

/-- `SINGLE_TIME_RE.search`: leftmost match anywhere in the text. -/
def searchSingle : List Char → Option TimeM
  | [] => none
  | c :: cs =>
    match matchTimeAt (c :: cs) with
    | some r => some r.1
    | none => searchSingle cs

/-! ## The date/time parser model (dateutil on the program's grammar) -/

/-- Gregorian leap year, as `datetime` uses it. -/
def isLeap (y : Nat) : Bool := y % 4 = 0 && (y % 100 ≠ 0 || y % 400 = 0)

def daysInMonth (y m : Nat) : Nat :=
  if m = 2 then (if isLeap y then 29 else 28)
  else if m = 4 ∨ m = 6 ∨ m = 9 ∨ m = 11 then 30
  else 31

/-- `dateutil.parser.parse` on a `DATE_RE` match succeeds iff the
components form a real calendar date (`datetime` raises otherwise;
`MINYEAR` is 1). -/
def dateValid (d : DateParts) : Bool :=
  1 ≤ d.year && 1 ≤ d.day && d.day ≤ daysInMonth d.year d.mon

/-- dateutil's meridian adjustment: PM adds 12 to hours below 12, AM maps
12 to 0, anything else is taken as written. -/
def adjustH (h : Nat) (pm : Bool) : Nat :=
  if pm then (if h < 12 then h + 12 else h)
  else (if h = 12 then 0 else h)

/-- A wall-clock instant (the program is timezone-naive). -/
structure DT where
  year : Nat
  mon : Nat
  day : Nat
  hour : Nat
  minute : Nat
deriving Repr, DecidableEq

/-- `parser.parse(f"{date_text} {time_text}")` for an already-validated
date: succeeds iff the adjusted time is a real clock time, raising
(`none`) otherwise — and that call site has no try/except around it. -/
def parseDT (d : DateParts) (t : TimeM) : Option DT :=
  let h := adjustH t.h t.pm
  if h ≤ 23 && t.m ≤ 59 then some ⟨d.year, d.mon, d.day, h, t.m⟩ else none

/-- The digit character of `n < 10`. -/
def digitC (n : Nat) : Char := Char.ofNat (48 + n)

def pad2 (n : Nat) : List Char := [digitC (n / 10 % 10), digitC (n % 10)]

def pad4 (n : Nat) : List Char :=
  [digitC (n / 1000 % 10), digitC (n / 100 % 10), digitC (n / 10 % 10), digitC (n % 10)]

/-- `datetime.isoformat()` for the instants this program builds (seconds
and microseconds are always zero, so the rendering is
`YYYY-MM-DDTHH:MM:SS`). -/
def isoDT (x : DT) : String :=
  String.mk (pad4 x.year ++ '-' :: pad2 x.mon ++ '-' :: pad2 x.day ++
    'T' :: pad2 x.hour ++ ':' :: pad2 x.minute ++ ":00".data)

example : isoDT ⟨2024, 3, 5, 19, 0⟩ = "2024-03-05T19:00:00" := by decide

/-! ## Title derivation (extractor.py lines 118-136, 165-177) -/

/-- The `\(\s*\d+%\s*\)` alternative of the split pattern, entered after
the opening parenthesis; returns the rest after the closing one. -/
def tryPctParen (l : List Char) : Option (List Char) :=
  let l1 := l.dropWhile isSpaceC
  if l1.takeWhile isDigitC = [] then none
  else
    match l1.dropWhile isDigitC with
    | '%' :: l2 =>
      match l2.dropWhile isSpaceC with
      | ')' :: r => some r
      | _ => none
    | _ => none

/-- `re.split(r"[.;|]\s*|\(\s*\d+%\s*\)", ...)`: segments between
non-overlapping delimiter matches, empties included.  `cur` accumulates the
current segment reversed, `skip` counts delimiter characters still to be
consumed. -/
def splitSegsGo : Nat → List Char → List Char → List (List Char)
  | _, cur, [] => [cur.reverse]
  | Nat.succ skip, cur, _ :: cs => splitSegsGo skip cur cs
  | 0, cur, c :: cs =>
    if c = '.' ∨ c = ';' ∨ c = '|' then
      cur.reverse :: splitSegsGo (cs.takeWhile isSpaceC).length [] cs
    else if c = '(' then
      match tryPctParen cs with
      | some rest => cur.reverse :: splitSegsGo (cs.length - rest.length) [] cs
      | none => splitSegsGo 0 (c :: cur) cs
    else splitSegsGo 0 (c :: cur) cs

def splitSegs (l : List Char) : List (List Char) := splitSegsGo 0 [] l

/-- `\b\d+%\b` at the current position (leading boundary checked by the
caller): a digit run, the percent sign, and a word character right after it
(`%` is not a word character, so the trailing `\b` needs one). -/
def tryPct (l : List Char) : Option (List Char) :=
  if l.takeWhile isDigitC = [] then none
  else
    match l.dropWhile isDigitC with
    | '%' :: rest =>
      match rest with
      | d :: _ => if isWordC d then some rest else none
      | [] => none
    | _ => none

/-- `re.sub(r"\b\d+%\b", "", ...)`: delete each bounded percentage token.
`prevW` tracks the previous original character's word status, `skip` the
characters of a deleted match still to be consumed. -/
def pctSubGo : Bool → Nat → List Char → List Char
  | _, _, [] => []
  | _, Nat.succ skip, c :: cs => pctSubGo (isWordC c) skip cs
  | prevW, 0, c :: cs =>
    if prevW then c :: pctSubGo (isWordC c) 0 cs
    else
      match tryPct (c :: cs) with
      | some rest => pctSubGo (isWordC c) ((c :: cs).length - rest.length - 1) cs
      | none => c :: pctSubGo (isWordC c) 0 cs

def pctSub (l : List Char) : List Char := pctSubGo false 0 l

/-- The `Date\s*/?\s*Deadline` alternative, case-insensitively. -/
def tryDateDeadline (l : List Char) : Option (List Char) :=
  (matchCI "date".data l).bind fun r1 =>
    let r2 := r1.dropWhile isSpaceC
    let r3 := match r2 with
      | '/' :: t => t.dropWhile isSpaceC
      | _ => r2
    matchCI "deadline".data r3

/-- One alternative of
`\b(Component|Weight|Date\s*/?\s*Deadline|Important Dates)\b` at the
current position, in alternation order, with the trailing boundary. -/
def tryBoiler (l : List Char) : Option (List Char) :=
  match ([matchCI "component".data l, matchCI "weight".data l,
          tryDateDeadline l, matchCI "important dates".data l].findSome? id) with
  | some r => if endBoundary r then some r else none
  | none => none

/-- `re.sub` deleting the boilerplate words of extractor.py lines 127-132. -/
def boilerSubGo : Bool → Nat → List Char → List Char
  | _, _, [] => []
  | _, Nat.succ skip, c :: cs => boilerSubGo (isWordC c) skip cs
  | prevW, 0, c :: cs =>
    if prevW then c :: boilerSubGo (isWordC c) 0 cs
    else
      match tryBoiler (c :: cs) with
      | some rest => boilerSubGo (isWordC c) ((c :: cs).length - rest.length - 1) cs
      | none => c :: boilerSubGo (isWordC c) 0 cs

def boilerSub (l : List Char) : List Char := boilerSubGo false 0 l

/-- extractor.py lines 122-136: split the (already stripped) text before
the date on sentence-like delimiters, keep the last segment, delete
percentage and boilerplate tokens, strip, and default to "Assignment". -/
def deriveTitleRaw (before : List Char) : List Char :=
  let t0 := stripWS (((splitSegs before).getLast?).getD before)
  let t1 := stripWS (pctSub t0)
  let t2 := stripWS (boilerSub t1)
  if t2 = [] then "Assignment".data else t2

/-- `re.split(r",|;", ...)`: split on single commas and semicolons. -/
def splitCommaSemiGo : List Char → List Char → List (List Char)
  | cur, [] => [cur.reverse]
  | cur, c :: cs =>
    if c = ',' ∨ c = ';' then cur.reverse :: splitCommaSemiGo [] cs
    else splitCommaSemiGo (c :: cur) cs

def splitCommaSemi (l : List Char) : List (List Char) := splitCommaSemiGo [] l

/-- The characters of Python `strip(" -:")`. -/
def isPunctC (c : Char) : Bool := c == ' ' || c == '-' || c == ':'

/-- extractor.py lines 166-173: multi-title expansion.  A term is kept if
its whitespace-stripped length exceeds 2, and the kept value is stripped of
surrounding spaces, hyphens and colons; if nothing survives, the unsplit
candidate is used. -/
def expandTitles (raw : List Char) : List (List Char) :=
  let kept := ((splitCommaSemi raw).filter
      fun t => 2 < (stripWS t).length).map (stripBothBy isPunctC)
  if kept = [] then [raw] else kept

example : deriveTitleRaw "Midterm Exam: March 5th".data = "Midterm Exam: March 5th".data := by decide
example : deriveTitleRaw "".data = "Assignment".data := by decide
example : deriveTitleRaw "Weight 25%".data = "25%".data := by decide
example : deriveTitleRaw "stuff. Quiz 1 (25%)".data = "Assignment".data := by decide
example : expandTitles "Quiz 1, Quiz 2".data = ["Quiz 1".data, "Quiz 2".data] := by decide
example : expandTitles "-:-:".data = [[]] := by decide
example : expandTitles "a, b".data = ["a, b".data] := by decide
example : pctSub "HW 25% due".data = "HW 25% due".data := by decide
example : pctSub "25%x after".data = "x after".data := by decide
example : boilerSub "Date / Deadline HW".data = " HW".data := by decide
example : boilerSub "update component x".data = "update  x".data := by decide
example : boilerSub "Weight 20".data = " 20".data := by decide
example : splitSegs "a. ; b".data = ["a".data, [], "b".data] := by decide
example : splitSegs "HW due.".data = ["HW due".data, []] := by decide

/-! ## The extraction loop (extractor.py lines 76-196) -/

/-- The engine's output record (`end` is a Lean keyword, hence `end_`). -/
structure XEvent where
  title : String
  type : String
  start : String
  end_ : String
  allDay : Bool
  extracted_from : String
deriving Repr, DecidableEq

/-- Python slice `l[a:b]` for `0 ≤ a, b`. -/
def sliceL (l : List Char) (a b : Nat) : List Char := (l.take b).drop a

/-- Lowercase a title the way `str.lower` does on its ASCII content. -/
def lowerStr (s : String) : String := String.mk (s.data.map lowerC)

/-- extractor.py line 181: the deduplication key
`title.lower() + "_" + start_iso[:10]`. -/
def dedupKey (title startIso : String) : String :=
  String.mk (title.data.map lowerC ++ '_' :: startIso.data.take 10)

/-- extractor.py lines 176-194: the per-title loop.  Each title gets its
whitespace normalized; an already-seen key is skipped, otherwise the event
is appended and the key remembered. -/
def emitTitles (startIso endIso : String) (allDay : Bool) (snippet : String) :
    List (List Char) → List XEvent → List String → List XEvent × List String
  | [], acc, seen => (acc, seen)
  | t :: ts, acc, seen =>
    let title := String.mk (collapseWS t)
    let key := dedupKey title startIso
    if seen.contains key then emitTitles startIso endIso allDay snippet ts acc seen
    else
      emitTitles startIso endIso allDay snippet ts
        (acc ++ [⟨title, guess_event_type title, startIso, endIso, allDay, snippet⟩])
        (seen ++ [key])

/-- extractor.py lines 138-163: time detection over the text after the
date match.  A range gives (first time, second time, timed); a single time
gives (it, it, timed); otherwise midnight of the date, all-day.  An
unparseable time is an uncaught exception. -/
def resolveTimes (dm : DateParts) (afterText : List Char) :
    Except Unit (String × String × Bool) :=
  match searchRange afterText with
  | some t12 =>
    match parseDT dm t12.1, parseDT dm t12.2 with
    | some st, some en => Except.ok (isoDT st, isoDT en, false)
    | _, _ => Except.error ()
  | none =>
    match searchSingle afterText with
    | some t1 =>
      match parseDT dm t1 with
      | some st => Except.ok (isoDT st, isoDT st, false)
      | none => Except.error ()
    | none =>
      Except.ok (isoDT ⟨dm.year, dm.mon, dm.day, 0, 0⟩,
        isoDT ⟨dm.year, dm.mon, dm.day, 0, 0⟩, true)

/-- One iteration of the `for date_match in DATE_RE.finditer(...)` loop:
skip the match if its date does not parse; otherwise build the snippet,
the title candidates and the times, and emit.  An unparseable time raises
out of the whole extraction (`Except.error`), since those `parser.parse`
calls are outside the try/except. -/
def stepMatch (cleaned : List Char) (acc : List XEvent) (seen : List String)
    (m : Nat × Nat × DateParts) : Except Unit (List XEvent × List String) :=
  if dateValid m.2.2 then
    match resolveTimes m.2.2 (sliceL cleaned m.2.1 (min cleaned.length (m.2.1 + 120))) with
    | Except.ok r =>
      Except.ok (emitTitles r.1 r.2.1 r.2.2
        (String.mk (stripWS (sliceL cleaned (m.1 - 120) (min cleaned.length (m.2.1 + 120)))))
        (expandTitles (deriveTitleRaw (stripWS (sliceL cleaned (m.1 - 120) m.1))))
        acc seen)
    | Except.error e => Except.error e
  else Except.ok (acc, seen)

/-- Folding the date matches through the loop body. -/
def runMatches (cleaned : List Char) :
    List (Nat × Nat × DateParts) → List XEvent → List String →
    Except Unit (List XEvent)
  | [], acc, _ => Except.ok acc
  | m :: ms, acc, seen =>
    match stepMatch cleaned acc seen m with
    | Except.ok x => runMatches cleaned ms x.1 x.2
    | Except.error e => Except.error e

/-- extractor.py lines 76-196, `extract_deadlines_from_text`: clean the
text, erase ignored headings, scan for dates and run the loop.  The result
is `Except.error ()` exactly when the Python function raises. -/
def extract_deadlines_from_text (text : String) : Except Unit (List XEvent) :=
  let cleaned := ignoreSub (clean_text text).data
  runMatches cleaned (dateScan cleaned 0) [] []

example :
    extract_deadlines_from_text "Final exam on December 12, 2024 7:00 PM - 9:00 PM" =
      Except.ok [⟨"Final exam on", "Exam", "2024-12-12T19:00:00", "2024-12-12T21:00:00",
        false, "Final exam on December 12, 2024 7:00 PM - 9:00 PM"⟩] := rfl

/-! ## The event store (models.py lines 95-130) -/

/-- A JSON-ish field value of an event dictionary. -/
inductive PVal
  | str (s : String)
  | int (n : Int)
  | bool (b : Bool)
  | null
deriving Repr, DecidableEq

/-- A stored event: every dictionary the store ever holds carries an
integer `id` (set at creation), modelled as a distinguished field; the
remaining keys are an association list in insertion order. -/
structure PEvent where
  id : Int
  fields : List (String × PVal)
deriving Repr, DecidableEq

/-- models.py lines 107-109, `get_event_by_id`: first event with the id. -/
def get_event_by_id (events : List PEvent) (eid : Int) : Option PEvent :=
  events.find? fun e => e.id == eid

/-- Python dict assignment `e[key] = value`: replace in place or append. -/
def setField : List (String × PVal) → String → PVal → List (String × PVal)
  | [], k, v => [(k, v)]
  | kv :: rest, k, v =>
    if kv.1 = k then (kv.1, v) :: rest else kv :: setField rest k v

/-- models.py lines 126-128: apply each update in order, never `id`. -/
def applyUpdates (e : PEvent) (us : List (String × PVal)) : PEvent :=
  us.foldl (fun ev kv =>
    if kv.1 = "id" then ev else { ev with fields := setField ev.fields kv.1 kv.2 }) e

/-- In-place mutation of the first event with the id (the dict returned by
`get_event_by_id` is an alias into the list). -/
def updateFirst (eid : Int) (us : List (String × PVal)) : List PEvent → List PEvent
  | [] => []
  | e :: rest =>
    if e.id == eid then applyUpdates e us :: rest else e :: updateFirst eid us rest

/-- models.py lines 111-130, `update_event`: returns whether the event was
found, together with the store after the in-place mutation. -/
def update_event (events : List PEvent) (eid : Int) (updates : List (String × PVal)) :
    Bool × List PEvent :=
  match get_event_by_id events eid with
  | none => (false, events)
  | some _ => (true, updateFirst eid updates events)

/-- Lexicographic comparison of character lists. -/
def lexLe : List Char → List Char → Bool
  | [], _ => true
  | _ :: _, [] => false
  | a :: as, b :: bs => if a = b then lexLe as bs else decide (a < b)

/-- Chronological order of the instants this program renders: the format
`YYYY-MM-DDTHH:MM:SS` is fixed-width, so lexicographic order of the
strings is exactly the order of the instants. -/
def isoLe (a b : String) : Bool := lexLe a.data b.data

/-! ## Claim C4 -/

/-- Claim C4 counterexample: the claim says every keyword is matched as a
whole word and that a title containing "projector" (and no whole-word
keyword) classifies as Other; but line 71's pattern
`\bproject|presentation|report\b` bounds only the start of "project", so
"projector" classifies as Project. -/
theorem guess_event_type_projector_cex :
    guess_event_type "projector" = "Project" ∧ ("Project" == "Other") = false := by
  exact ⟨by decide, by decide⟩

/-- Claim C4 as amended: `guess_event_type` is total — for any string it
returns one of the 7 allowed categories and never throws — and is
first-match-wins over the ordered keyword checks; every keyword is matched
as a whole word except the Project row, where "project" needs only a
leading boundary, "presentation" matches as a bare substring and "report"
needs only a trailing boundary.  So "midterm"+"exam" gives Midterm,
"finals" (no whole word) gives Other, but "projector" gives Project. -/
theorem guess_event_type_total :
    (∀ s : String, guess_event_type s ∈ ALLOWED_TYPES) ∧
    guess_event_type "Midterm Exam" = "Midterm" ∧
    guess_event_type "finals week" = "Other" ∧
    guess_event_type "projector" = "Project" ∧
    guess_event_type "misreport" = "Project" ∧
    guess_event_type "my presentations" = "Project" := by
  refine ⟨fun s => ?_, by decide, by decide, by decide, by decide, by decide⟩
  unfold guess_event_type
  dsimp only
  split_ifs <;> simp [ALLOWED_TYPES]

/-! ## Claim C8 -/

/-- Claim C8: a matched date that is not a real calendar date ("Feb 31,
2024") is skipped silently and extraction continues — but the claim's
"extract never raises for any input text" part fails in the code: the
`parser.parse` calls for times (extractor.py lines 148, 149, 155) are not
inside the try/except, so a time-shaped token with an impossible clock
value ("7:99 PM") raises ValueError out of `extract_deadlines_from_text`. -/
theorem extract_feb31_skipped_bad_time_raises :
    extract_deadlines_from_text "Feb 31, 2024. Quiz 1: Mar 1, 2024" =
      Except.ok [⟨"Quiz 1", "Quiz", "2024-03-01T00:00:00", "2024-03-01T00:00:00", true,
        "Feb 31, 2024. Quiz 1: Mar 1, 2024"⟩] ∧
    extract_deadlines_from_text "HW due March 5, 2024 7:99 PM" = Except.error () := by
  exact ⟨rfl, rfl⟩

/-! ## Claim C3 (counterexample) -/

/-- Claim C3 counterexample: the claim says no emitted title is ever
empty; but a pre-split candidate consisting only of hyphens and colons
("-:-:") passes the `len(t.strip()) > 2` filter and is then stripped of
" -:" to the empty string, so the event is emitted with an empty title. -/
theorem extract_title_can_be_empty :
    Except.map (List.map XEvent.title)
      (extract_deadlines_from_text "-:-: March 5, 2024") = Except.ok [""] := by
  exact rfl

/-! ## Claim C2 -/

/-- Claim C2 counterexample: the claim says a time belonging to a later
date never attaches to the current date's event; but the time search
covers the full 120 characters after the date match, so the second
clause's "7:00 PM" (the only time in the text) attaches to the March 5
event as well: both events come out with `allDay = false` and the first
starts at 19:00 on March 5. -/
theorem extract_later_date_time_attaches :
    Except.map (List.map fun e => (e.start, e.allDay))
      (extract_deadlines_from_text "HW due March 5, 2024. Exam on March 10, 2024 7:00 PM") =
      Except.ok [("2024-03-05T19:00:00", false), ("2024-03-10T19:00:00", false)] := by
  exact rfl

/-! ## Claim C1 (counterexample) -/

/-- Claim C1 counterexample: the claim says the earlier time of a range
becomes `start` and the later `end` even when written later-first; but
extractor.py lines 148-149 take the first-written time as `start` and the
second as `end` without comparing, so "9:00 PM - 7:00 PM" yields an event
with start 21:00 and end 19:00 — start > end, violating the ordering
invariant. -/
theorem extract_range_start_can_exceed_end :
    Except.map (List.map fun e => (e.start, e.end_))
      (extract_deadlines_from_text "Final exam on March 5, 2024 9:00 PM - 7:00 PM") =
      Except.ok [("2024-03-05T21:00:00", "2024-03-05T19:00:00")] ∧
    isoLe "2024-03-05T21:00:00" "2024-03-05T19:00:00" = false := by
  exact ⟨rfl, rfl⟩

/-! ## Claim C6: four-digit-year machinery -/

/-- `k` consecutive digit characters at the head. -/
def startsD : Nat → List Char → Bool
  | 0, _ => true
  | _ + 1, [] => false
  | k + 1, c :: cs => isDigitC c && startsD k cs

/-- Some position carries four consecutive digit characters — the shape a
`DATE_RE` year requires. -/
def has4 : List Char → Bool
  | [] => false
  | c :: cs => startsD 4 (c :: cs) || has4 cs

theorem has4_cons {c : Char} {cs : List Char} (h : has4 cs = true) :
    has4 (c :: cs) = true := by
  simp [has4, h]

theorem startsD_append {k : Nat} {l t : List Char} (h : startsD k l = true) :
    startsD k (l ++ t) = true := by
  induction k generalizing l with
  | zero => rfl
  | succ k ih =>
    cases l with
    | nil => simp [startsD] at h
    | cons c cs =>
      simp only [startsD, Bool.and_eq_true] at h ⊢
      exact ⟨h.1, ih h.2⟩

theorem has4_append_right {l t : List Char} (h : has4 t = true) :
    has4 (l ++ t) = true := by
  induction l with
  | nil => simpa using h
  | cons c cs ih => exact has4_cons ih

theorem has4_append_left {l t : List Char} (h : has4 l = true) :
    has4 (l ++ t) = true := by
  induction l with
  | nil => simp [has4] at h
  | cons c cs ih =>
    simp only [has4, Bool.or_eq_true] at h
    rcases h with h | h
    · simp only [List.cons_append, has4, Bool.or_eq_true]
      exact Or.inl (by simpa using startsD_append (t := t) h)
    · exact has4_cons (ih h)

theorem has4_dropWhile {p : Char → Bool} {l : List Char}
    (h : has4 (l.dropWhile p) = true) : has4 l = true := by
  have := has4_append_right (l := l.takeWhile p) h
  rwa [List.takeWhile_append_dropWhile] at this

theorem stripTailBy_append {p : Char → Bool} (l : List Char) :
    ∃ t, stripTailBy p l ++ t = l := by
  induction l with
  | nil => exact ⟨[], rfl⟩
  | cons c cs ih =>
    obtain ⟨t, ht⟩ := ih
    simp only [stripTailBy]
    split
    · exact ⟨c :: cs, rfl⟩
    · exact ⟨t, by simp [ht]⟩

theorem has4_stripTailBy {p : Char → Bool} {l : List Char}
    (h : has4 (stripTailBy p l) = true) : has4 l = true := by
  obtain ⟨t, ht⟩ := stripTailBy_append (p := p) l
  rw [← ht]
  exact has4_append_left h

theorem has4_stripWS {l : List Char} (h : has4 (stripWS l) = true) :
    has4 l = true := by
  unfold stripWS stripBothBy stripHeadBy at h
  exact has4_dropWhile (has4_stripTailBy h)

theorem startsD_map {f : Char → Char} (hf : ∀ c, isDigitC (f c) = isDigitC c)
    {k : Nat} {l : List Char} : startsD k (l.map f) = startsD k l := by
  induction k generalizing l with
  | zero => rfl
  | succ k ih =>
    cases l with
    | nil => rfl
    | cons c cs => simp [startsD, hf c, ih]

theorem has4_map {f : Char → Char} (hf : ∀ c, isDigitC (f c) = isDigitC c)
    {l : List Char} : has4 (l.map f) = has4 l := by
  induction l with
  | nil => rfl
  | cons c cs ih =>
    simp only [List.map_cons, has4, ih]
    rw [show (f c :: cs.map f) = ([c].map f ++ cs.map f) by simp,
      ← List.map_append, startsD_map hf]
    simp [has4]

theorem dashMap_digit (c : Char) : isDigitC (dashMap c) = isDigitC c := by
  unfold dashMap
  split
  · rename_i h
    rcases h with rfl | rfl <;> decide
  · rfl

theorem not_digit_of_emoji {c : Char} (h : isEmojiC c = true) :
    isDigitC c = false := by
  unfold isEmojiC at h
  simp only [Bool.or_eq_true, Bool.and_eq_true, decide_eq_true_eq] at h
  unfold isDigitC
  rcases h with ⟨h1, _⟩ | ⟨h1, _⟩
  · have : ¬ c ≤ '9' := fun hc => absurd (le_trans h1 hc) (by decide)
    simp [this]
  · have : ¬ c ≤ '9' := fun hc => absurd (le_trans h1 hc) (by decide)
    simp [this]

theorem emojiMap_digit (c : Char) : isDigitC (emojiMap c) = isDigitC c := by
  unfold emojiMap
  split
  · rename_i h
    rw [not_digit_of_emoji h]
    decide
  · rfl

theorem startsD_collapseGo {k : Nat} {l : List Char}
    (h : startsD k (collapseGo false l) = true) : startsD k l = true := by
  induction l generalizing k with
  | nil =>
    cases k with
    | zero => rfl
    | succ k => simp [collapseGo, startsD] at h
  | cons c cs ih =>
    cases k with
    | zero => rfl
    | succ k =>
      by_cases hc : isSpaceC c = true
      · simp only [collapseGo, hc, if_true, if_false, Bool.false_eq_true, startsD] at h
        simp [isDigitC] at h
      · simp only [collapseGo, hc, Bool.false_eq_true, if_false, startsD,
          Bool.and_eq_true] at h ⊢
        exact ⟨h.1, ih h.2⟩

theorem has4_collapseGo {b : Bool} {l : List Char}
    (h : has4 (collapseGo b l) = true) : has4 l = true := by
  induction l generalizing b with
  | nil => simpa [collapseGo] using h
  | cons c cs ih =>
    by_cases hc : isSpaceC c = true
    · have htail : has4 (collapseGo true cs) = true := by
        cases b with
        | true => simpa [collapseGo, hc] using h
        | false =>
          simp only [collapseGo, hc, if_true] at h
          simpa [has4, startsD, isDigitC] using h
      exact has4_cons (ih htail)
    · simp only [collapseGo, hc, Bool.false_eq_true, if_false, has4,
        Bool.or_eq_true] at h
      rcases h with h | h
      · simp only [startsD, Bool.and_eq_true] at h
        simp only [has4, Bool.or_eq_true]
        exact Or.inl (by simp [startsD, h.1, startsD_collapseGo h.2])
      · exact has4_cons (ih h)

theorem startsD_ignoreSubGo {k : Nat} {pw : Bool} {l : List Char}
    (h : startsD k (ignoreSubGo pw 0 l) = true) : startsD k l = true := by
  induction l generalizing k pw with
  | nil =>
    cases k with
    | zero => rfl
    | succ k => simp [ignoreSubGo, startsD] at h
  | cons c cs ih =>
    cases k with
    | zero => rfl
    | succ k =>
      simp only [ignoreSubGo] at h
      by_cases hw : pw = true
      · subst hw
        simp only [if_true] at h
        simp only [startsD, Bool.and_eq_true] at h ⊢
        exact ⟨h.1, ih h.2⟩
      · simp only [Bool.not_eq_true] at hw
        subst hw
        simp only [Bool.false_eq_true, if_false] at h
        cases htp : tryIgnorePhrase (c :: cs) with
        | some rest =>
          rw [htp] at h
          simp [startsD, isDigitC] at h
        | none =>
          rw [htp] at h
          simp only [startsD, Bool.and_eq_true] at h ⊢
          exact ⟨h.1, ih h.2⟩

theorem has4_ignoreSubGo {pw : Bool} {skip : Nat} {l : List Char}
    (h : has4 (ignoreSubGo pw skip l) = true) : has4 l = true := by
  induction l generalizing pw skip with
  | nil => simpa [ignoreSubGo] using h
  | cons c cs ih =>
    cases skip with
    | succ n =>
      simp only [ignoreSubGo] at h
      exact has4_cons (ih h)
    | zero =>
      simp only [ignoreSubGo] at h
      by_cases hw : pw = true
      · subst hw
        simp only [if_true, has4, Bool.or_eq_true] at h
        rcases h with h | h
        · simp only [startsD, Bool.and_eq_true] at h
          simp only [has4, Bool.or_eq_true]
          exact Or.inl (by simp [startsD, h.1, startsD_ignoreSubGo h.2])
        · exact has4_cons (ih h)
      · simp only [Bool.not_eq_true] at hw
        subst hw
        simp only [Bool.false_eq_true, if_false] at h
        cases htp : tryIgnorePhrase (c :: cs) with
        | some rest =>
          rw [htp] at h
          simp only [has4, Bool.or_eq_true] at h
          rcases h with h | h
          · simp [startsD, isDigitC] at h
          · exact has4_cons (ih h)
        | none =>
          rw [htp] at h
          simp only [has4, Bool.or_eq_true] at h
          rcases h with h | h
          · simp only [startsD, Bool.and_eq_true] at h
            simp only [has4, Bool.or_eq_true]
            exact Or.inl (by simp [startsD, h.1, startsD_ignoreSubGo h.2])
          · exact has4_cons (ih h)

theorem has4_cleanL {l : List Char} (h : has4 (cleanL l) = true) :
    has4 l = true := by
  unfold cleanL collapseWS at h
  have h1 := has4_collapseGo (has4_stripWS h)
  rwa [has4_map emojiMap_digit, has4_map dashMap_digit] at h1

theorem year4_startsD {l : List Char} {x : Nat × List Char}
    (h : year4 l = some x) : startsD 4 l = true := by
  unfold year4 at h
  split at h
  · split at h
    · rename_i habcd
      simp only [Bool.and_eq_true] at habcd
      simp [startsD, habcd.1.1.1, habcd.1.1.2, habcd.1.2, habcd.2]
    · exact absurd h (by simp)
  · exact absurd h (by simp)

theorem has4_of_startsD {l : List Char} (h : startsD 4 l = true) :
    has4 l = true := by
  cases l with
  | nil => simp [startsD] at h
  | cons c cs => simp [has4, h]

theorem spaces1_has4 {m r : List Char} (hs : spaces1 m = some r)
    (h : has4 r = true) : has4 m = true := by
  cases m with
  | nil => simp [spaces1] at hs
  | cons c cs =>
    simp only [spaces1] at hs
    split at hs
    · cases hs
      exact has4_cons (has4_dropWhile h)
    · exact absurd hs (by simp)

theorem bindYear_has4 {m : List Char} {x : Nat × List Char}
    (h : (spaces1 m).bind year4 = some x) : has4 m = true := by
  cases hs : spaces1 m with
  | none => rw [hs] at h; simp at h
  | some r =>
    rw [hs] at h
    simp only [Option.some_bind] at h
    exact spaces1_has4 hs (has4_of_startsD (year4_startsD h))

theorem afterDay_has4 {l : List Char} {x : Nat × List Char}
    (h : afterDay l = some x) : has4 l = true := by
  unfold afterDay at h
  split at h
  · rename_i cs
    split at h
    · rename_i x' hx'
      exact has4_cons (bindYear_has4 hx')
    · exact bindYear_has4 h
  · exact bindYear_has4 h

theorem suffixOpt_has4 {m r : List Char} (hr : r ∈ suffixOpt m)
    (h : has4 r = true) : has4 m = true := by
  unfold suffixOpt at hr
  split at hr
  · rename_i r' hr'
    obtain ⟨s, _, hf⟩ := List.exists_of_findSome?_eq_some hr'
    obtain ⟨pre, hpre, _⟩ := matchCI_append hf
    simp only [List.mem_cons, List.not_mem_nil, or_false] at hr
    rcases hr with rfl | rfl
    · rw [← hpre]; exact has4_append_right h
    · exact h
  · simp only [List.mem_cons, List.not_mem_nil, or_false] at hr
    rw [hr] at h; exact h

theorem dayCands_has4 {l : List Char} {d : Nat} {r : List Char}
    (hr : (d, r) ∈ dayCands l) (h : has4 r = true) : has4 l = true := by
  match l with
  | [] => simp [dayCands] at hr
  | [a] =>
    simp only [dayCands] at hr
    split at hr <;> simp_all [has4]
  | a :: b :: rest =>
    simp only [dayCands] at hr
    split at hr
    · rw [List.mem_append] at hr
      rcases hr with hr | hr
      · split at hr
        · obtain ⟨r', hr', heq⟩ := List.mem_map.mp hr
          cases heq
          exact has4_cons (has4_cons (suffixOpt_has4 hr' h))
        · simp at hr
      · obtain ⟨r', hr', heq⟩ := List.mem_map.mp hr
        cases heq
        exact has4_cons (suffixOpt_has4 hr' h)
    · simp at hr

theorem matchDateAt_has4 {l : List Char} {x : DateParts × List Char}
    (h : matchDateAt l = some x) : has4 l = true := by
  unfold matchDateAt at h
  obtain ⟨mr, hmr, hf⟩ := List.exists_of_findSome?_eq_some h
  obtain ⟨pm, _, hpf⟩ := List.mem_filterMap.mp hmr
  cases hmc : matchCI pm.1 l with
  | none => rw [hmc] at hpf; simp at hpf
  | some rm =>
    rw [hmc] at hpf
    simp only [Option.map_some'] at hpf
    cases hpf
    obtain ⟨pre, hpre, _⟩ := matchCI_append hmc
    cases hsp : spaces1 rm with
    | none => rw [hsp] at hf; simp at hf
    | some r2 =>
      rw [hsp] at hf
      simp only [Option.some_bind] at hf
      obtain ⟨dr, hdr, hdf⟩ := List.exists_of_findSome?_eq_some hf
      cases had : afterDay dr.2 with
      | none => rw [had] at hdf; simp at hdf
      | some yr =>
        have h1 : has4 dr.2 = true := afterDay_has4 had
        have h2 : has4 r2 = true := dayCands_has4 (d := dr.1) (r := dr.2) (by simpa using hdr) h1
        have h3 : has4 rm = true := spaces1_has4 hsp h2
        rw [← hpre]
        exact has4_append_right h3

theorem dateScanGo_nil {l : List Char} (h : has4 l = false) :
    ∀ skip pos, dateScanGo skip l pos = [] := by
  induction l with
  | nil => intro skip pos; cases skip <;> rfl
  | cons c cs ih =>
    intro skip pos
    have htail : has4 cs = false := by
      cases hcs : has4 cs
      · rfl
      · rw [has4_cons hcs] at h; cases h
    cases skip with
    | succ n => simpa [dateScanGo] using ih htail n (pos + 1)
    | zero =>
      cases hm : matchDateAt (c :: cs) with
      | some x => rw [matchDateAt_has4 hm] at h; cases h
      | none => simpa [dateScanGo, hm] using ih htail 0 (pos + 1)

/-- Claim C6 counterexample: the claim says a month abbreviation with a
trailing period ("Jan. 5, 2024") is located as a date occurrence; but
`DATE_RE` is `MONTH\s+DAY,?\s+YEAR` with no optional period after the
month, so the period breaks the mandatory whitespace and nothing matches:
the scan finds no occurrence and the extraction is empty. -/
theorem extract_dotted_month_not_matched :
    dateScan "HW due Jan. 5, 2024".data 0 = [] ∧
    extract_deadlines_from_text "HW due Jan. 5, 2024" = Except.ok [] := by
  exact ⟨rfl, rfl⟩

/-- Claim C6 as amended: the date pattern matches
`<Month> <Day>[suffix],? <4-digit Year>` where Month is a full English
month name or a standard abbreviation with NO trailing period ("Jan 5,
2024" is located, "Jan. 5, 2024" is not — see the counterexample), Day is
1-2 digits with an optional ordinal suffix, and Year is exactly 4 digits;
a text containing no four consecutive digits can contain no year, so
`extract` returns the empty sequence on it. -/
theorem extract_requires_four_digit_year :
    (∀ t : String, has4 t.data = false →
      extract_deadlines_from_text t = Except.ok []) ∧
    Except.map (List.map fun e => (e.start, e.allDay))
      (extract_deadlines_from_text "HW due Jan 5, 2024") =
      Except.ok [("2024-01-05T00:00:00", true)] := by
  refine ⟨fun t h => ?_, rfl⟩
  unfold extract_deadlines_from_text
  dsimp only
  have hcl : has4 (ignoreSub (clean_text t).data) = false := by
    cases hc : has4 (ignoreSub (clean_text t).data)
    · rfl
    · exact absurd (has4_cleanL (has4_ignoreSubGo hc)) (by simp [h])
  rw [show dateScan (ignoreSub (clean_text t).data) 0 = [] from
    dateScanGo_nil hcl 0 0]
  rfl

/-- Witness for the amended claim C6 at a dateless concrete input. -/
theorem extract_requires_four_digit_year_witness :
    has4 "March 5 homework due at 5 pm".data = false ∧
    extract_deadlines_from_text "March 5 homework due at 5 pm" = Except.ok [] := by
  exact ⟨by decide, extract_requires_four_digit_year.1 _ (by decide)⟩

/-! ## Claim C7: idempotence of normalization -/

/-- Whitespace-normal form: every whitespace character is a plain space
and no two adjacent characters are both whitespace. -/
def goodWS : List Char → Bool
  | [] => true
  | [c] => !isSpaceC c || c == ' '
  | a :: b :: rest =>
    ((!isSpaceC a) || (a == ' ' && !isSpaceC b)) && goodWS (b :: rest)

/-- The head, if any, is not whitespace. -/
def headOkB : List Char → Bool
  | [] => true
  | c :: _ => !isSpaceC c

theorem collapseGo_true_headOk (l : List Char) : headOkB (collapseGo true l) = true := by
  induction l with
  | nil => rfl
  | cons c cs ih =>
    by_cases hc : isSpaceC c = true
    · simpa [collapseGo, hc] using ih
    · simp [collapseGo, hc, headOkB]

theorem goodWS_cons_nonspace {c : Char} {l : List Char} (hc : isSpaceC c = false)
    (hl : goodWS l = true) : goodWS (c :: l) = true := by
  cases l with
  | nil => simp [goodWS, hc]
  | cons x xs => simp [goodWS, hc, hl]

theorem collapseGo_cons_space {c : Char} {cs : List Char} (h : isSpaceC c = true) :
    collapseGo false (c :: cs) = ' ' :: collapseGo true cs := by
  simp [collapseGo, h]

theorem collapseGo_cons_space_run {c : Char} {cs : List Char} (h : isSpaceC c = true) :
    collapseGo true (c :: cs) = collapseGo true cs := by
  simp [collapseGo, h]

theorem collapseGo_cons_nonspace {b : Bool} {c : Char} {cs : List Char}
    (h : isSpaceC c = false) : collapseGo b (c :: cs) = c :: collapseGo false cs := by
  cases b <;> simp [collapseGo, h]

theorem goodWS_cons_space {l : List Char} (hh : headOkB l = true)
    (hl : goodWS l = true) : goodWS (' ' :: l) = true := by
  cases l with
  | nil => decide
  | cons x xs =>
    simp only [headOkB] at hh
    simp only [goodWS]
    rw [hl]
    simp [hh]

theorem goodWS_collapseGo (l : List Char) : ∀ b, goodWS (collapseGo b l) = true := by
  induction l with
  | nil => intro b; rfl
  | cons c cs ih =>
    intro b
    by_cases hc : isSpaceC c = true
    · cases b with
      | true => simpa [collapseGo, hc] using ih true
      | false =>
        simp only [collapseGo, hc, if_true]
        exact goodWS_cons_space (collapseGo_true_headOk cs) (ih true)
    · simp only [collapseGo, hc, Bool.false_eq_true, if_false]
      exact goodWS_cons_nonspace (by simpa using hc) (ih false)

theorem collapseGo_eq_self {l : List Char} (h : goodWS l = true) :
    collapseGo false l = l := by
  induction l with
  | nil => rfl
  | cons a l ih =>
    cases l with
    | nil =>
      by_cases ha : isSpaceC a = true
      · have : a = ' ' := by
          simp only [goodWS, ha, Bool.not_true, Bool.false_or, beq_iff_eq] at h
          exact h
        subst this
        rfl
      · simp [collapseGo, ha]
    | cons b rest =>
      simp only [goodWS, Bool.and_eq_true] at h
      by_cases ha : isSpaceC a = true
      · have hab : a = ' ' ∧ isSpaceC b = false := by
          rcases Bool.or_eq_true_iff.mp h.1 with h1 | h1
          · simp [ha] at h1
          · simp only [Bool.and_eq_true, beq_iff_eq, Bool.not_eq_true'] at h1
            exact h1
        have htail := ih h.2
        rw [collapseGo_cons_nonspace hab.2] at htail
        rw [collapseGo_cons_space ha, collapseGo_cons_nonspace hab.2, hab.1]
        exact congrArg _ htail
      · have htail := ih h.2
        rw [collapseGo_cons_nonspace (by simpa using ha), htail]

theorem goodWS_tail {a : Char} {l : List Char} (h : goodWS (a :: l) = true) :
    goodWS l = true := by
  cases l with
  | nil => rfl
  | cons b rest =>
    simp only [goodWS, Bool.and_eq_true] at h
    exact h.2

theorem goodWS_dropWhile {p : Char → Bool} {l : List Char} (h : goodWS l = true) :
    goodWS (l.dropWhile p) = true := by
  induction l with
  | nil => simpa using h
  | cons c cs ih =>
    by_cases hp : p c = true
    · simp only [List.dropWhile_cons, hp, if_true]
      exact ih (goodWS_tail h)
    · simpa [List.dropWhile_cons, hp] using h

theorem stripTailBy_head {p : Char → Bool} (l : List Char) :
    stripTailBy p l = [] ∨ (stripTailBy p l).head? = l.head? := by
  cases l with
  | nil => exact Or.inl rfl
  | cons c cs =>
    simp only [stripTailBy]
    split
    · exact Or.inl rfl
    · exact Or.inr rfl

theorem goodWS_pair_weaken {c b : Char} {rest : List Char}
    (h : goodWS (c :: b :: rest) = true) : (!isSpaceC c || c == ' ') = true := by
  simp only [goodWS, Bool.and_eq_true] at h
  rcases Bool.or_eq_true_iff.mp h.1 with h1 | h1
  · simp [h1]
  · simp only [Bool.and_eq_true] at h1
    simp [h1.1]

theorem goodWS_stripTailBy {p : Char → Bool} {l : List Char} (h : goodWS l = true) :
    goodWS (stripTailBy p l) = true := by
  induction l with
  | nil => simpa using h
  | cons c cs ih =>
    have htail := ih (goodWS_tail h)
    simp only [stripTailBy]
    split
    · rfl
    · rename_i hcond
      cases hr : stripTailBy p cs with
      | nil =>
        cases cs with
        | nil => simpa using h
        | cons b rest =>
          have := goodWS_pair_weaken h
          simp [goodWS, this]
      | cons x xs =>
        rcases stripTailBy_head (p := p) cs with h0 | h0
        · rw [hr] at h0; cases h0
        · rw [hr] at h0 htail
          cases cs with
          | nil => simp [List.head?] at h0
          | cons b rest =>
            simp only [List.head?, Option.some.injEq] at h0
            subst h0
            simp only [goodWS, Bool.and_eq_true] at h ⊢
            exact ⟨h.1, htail⟩

theorem headOkB_dropWhile (l : List Char) :
    headOkB (l.dropWhile isSpaceC) = true := by
  induction l with
  | nil => rfl
  | cons c cs ih =>
    by_cases hc : isSpaceC c = true
    · simpa [List.dropWhile_cons, hc] using ih
    · simp [List.dropWhile_cons, hc, headOkB]

theorem headOkB_stripTailBy {p : Char → Bool} {l : List Char}
    (h : headOkB l = true) : headOkB (stripTailBy p l) = true := by
  rcases stripTailBy_head (p := p) l with h0 | h0
  · simp [h0, headOkB]
  · cases hr : stripTailBy p l with
    | nil => rfl
    | cons x xs =>
      rw [hr] at h0
      cases l with
      | nil => simp [List.head?] at h0
      | cons c cs =>
        simp only [List.head?, Option.some.injEq] at h0
        subst h0
        simpa [headOkB] using h

theorem dropWhile_eq_self_of_headOk {l : List Char} (h : headOkB l = true) :
    l.dropWhile isSpaceC = l := by
  cases l with
  | nil => rfl
  | cons c cs =>
    simp only [headOkB, Bool.not_eq_true'] at h
    simp [List.dropWhile_cons, h]

theorem stripTailBy_idem {p : Char → Bool} (l : List Char) :
    stripTailBy p (stripTailBy p l) = stripTailBy p l := by
  induction l with
  | nil => rfl
  | cons c cs ih =>
    simp only [stripTailBy]
    split
    · rfl
    · rename_i hcond
      simp only [stripTailBy, ih]
      split
      · rename_i hcond2
        exact absurd hcond2 hcond
      · rfl

theorem mem_collapseGo {c : Char} {b : Bool} {l : List Char}
    (h : c ∈ collapseGo b l) : c ∈ l ∨ c = ' ' := by
  induction l generalizing b with
  | nil => simp [collapseGo] at h
  | cons x xs ih =>
    by_cases hx : isSpaceC x = true
    · cases b with
      | true =>
        rw [collapseGo_cons_space_run hx] at h
        rcases ih h with h1 | h1
        · exact Or.inl (List.mem_cons_of_mem _ h1)
        · exact Or.inr h1
      | false =>
        rw [collapseGo_cons_space hx] at h
        rcases List.mem_cons.mp h with rfl | h1
        · exact Or.inr rfl
        · rcases ih h1 with h2 | h2
          · exact Or.inl (List.mem_cons_of_mem _ h2)
          · exact Or.inr h2
    · rw [collapseGo_cons_nonspace (by simpa using hx)] at h
      rcases List.mem_cons.mp h with rfl | h1
      · exact Or.inl (List.mem_cons_self _ _)
      · rcases ih h1 with h2 | h2
        · exact Or.inl (List.mem_cons_of_mem _ h2)
        · exact Or.inr h2

theorem mem_stripTailBy {p : Char → Bool} {c : Char} {l : List Char}
    (h : c ∈ stripTailBy p l) : c ∈ l := by
  obtain ⟨t, ht⟩ := stripTailBy_append (p := p) l
  rw [← ht]
  exact List.mem_append_left _ h

theorem mem_stripWS {c : Char} {l : List Char} (h : c ∈ stripWS l) : c ∈ l := by
  unfold stripWS stripBothBy stripHeadBy at h
  exact (List.dropWhile_sublist _).subset (mem_stripTailBy h)

theorem dashMap_ne_dash (a : Char) : dashMap a ≠ '–' ∧ dashMap a ≠ '—' := by
  unfold dashMap
  split
  · exact ⟨by decide, by decide⟩
  · rename_i h
    push_neg at h
    exact h

theorem dashMap_eq_of_ne {a : Char} (h1 : a ≠ '–') (h2 : a ≠ '—') : dashMap a = a := by
  unfold dashMap
  split
  · rename_i h
    rcases h with rfl | rfl
    · exact absurd rfl h1
    · exact absurd rfl h2
  · rfl

theorem emojiMap_not_emoji (a : Char) : isEmojiC (emojiMap a) = false := by
  unfold emojiMap
  split
  · decide
  · rename_i h
    simpa using h

theorem emojiMap_eq_of_not {a : Char} (h : isEmojiC a = false) : emojiMap a = a := by
  unfold emojiMap
  split
  · rename_i h2
    rw [h2] at h
    cases h
  · rfl

theorem emojiMap_ne_dash {a : Char} (h1 : a ≠ '–') (h2 : a ≠ '—') :
    emojiMap a ≠ '–' ∧ emojiMap a ≠ '—' := by
  unfold emojiMap
  split
  · exact ⟨by decide, by decide⟩
  · exact ⟨h1, h2⟩

theorem mem_cleanL {c : Char} {l : List Char} (h : c ∈ cleanL l) :
    dashMap c = c ∧ emojiMap c = c := by
  unfold cleanL collapseWS at h
  rcases mem_collapseGo (mem_stripWS h) with h1 | h1
  · obtain ⟨b, hb, rfl⟩ := List.mem_map.mp h1
    obtain ⟨a, _, rfl⟩ := List.mem_map.mp hb
    have hnd := dashMap_ne_dash a
    have hed := emojiMap_ne_dash hnd.1 hnd.2
    exact ⟨dashMap_eq_of_ne hed.1 hed.2, emojiMap_eq_of_not (emojiMap_not_emoji _)⟩
  · subst h1
    exact ⟨by decide, by decide⟩

theorem cleanL_idem (l : List Char) : cleanL (cleanL l) = cleanL l := by
  have hmap : ∀ f : Char → Char, (∀ c ∈ cleanL l, f c = c) →
      (cleanL l).map f = cleanL l := by
    intro f hf
    rw [List.map_congr_left hf]
    simp
  have h1 : (cleanL l).map dashMap = cleanL l :=
    hmap dashMap fun c hc => (mem_cleanL hc).1
  have h2 : (cleanL l).map emojiMap = cleanL l :=
    hmap emojiMap fun c hc => (mem_cleanL hc).2
  have hgood : goodWS (cleanL l) = true := by
    unfold cleanL collapseWS stripWS stripBothBy stripHeadBy
    exact goodWS_stripTailBy (goodWS_dropWhile (goodWS_collapseGo _ false))
  have hhead : headOkB (cleanL l) = true := by
    unfold cleanL stripWS stripBothBy stripHeadBy
    exact headOkB_stripTailBy (headOkB_dropWhile _)
  have h3 : collapseWS (cleanL l) = cleanL l := collapseGo_eq_self hgood
  have h4 : stripWS (cleanL l) = cleanL l := by
    have hd : (cleanL l).dropWhile isSpaceC = cleanL l :=
      dropWhile_eq_self_of_headOk hhead
    have ht : stripTailBy isSpaceC (cleanL l) = cleanL l := by
      conv_lhs => rw [show cleanL l = stripTailBy isSpaceC
        ((collapseWS ((l.map dashMap).map emojiMap)).dropWhile isSpaceC) from rfl]
      rw [stripTailBy_idem]
      rfl
    show stripTailBy isSpaceC ((cleanL l).dropWhile isSpaceC) = cleanL l
    rw [hd, ht]
  show stripWS (collapseWS (((cleanL l).map dashMap).map emojiMap)) = cleanL l
  rw [h1, h2, h3, h4]

/-- Claim C7: text normalization is idempotent —
`clean_text (clean_text x) = clean_text x` for every input string. -/
theorem clean_text_idempotent (x : String) :
    clean_text (clean_text x) = clean_text x := by
  show String.mk (cleanL (String.mk (cleanL x.data)).data) = String.mk (cleanL x.data)
  exact congrArg String.mk (cleanL_idem x.data)

/-! ## Provenance of emitted events (shared by several claims) -/

/-- What the per-title loop appends: each new event is built from one of
the candidate titles with the loop's fixed start/end/allDay/snippet. -/
theorem emitTitles_mem {sIso eIso : String} {aD : Bool} {snip : String} :
    ∀ (ts : List (List Char)) (acc : List XEvent) (seen : List String)
      (ev : XEvent), ev ∈ (emitTitles sIso eIso aD snip ts acc seen).1 →
      ev ∈ acc ∨ ∃ t, t ∈ ts ∧ ev = ⟨String.mk (collapseWS t),
        guess_event_type (String.mk (collapseWS t)), sIso, eIso, aD, snip⟩ := by
  intro ts
  induction ts with
  | nil =>
    intro acc seen ev h
    exact Or.inl (by simpa [emitTitles] using h)
  | cons t ts ih =>
    intro acc seen ev h
    simp only [emitTitles] at h
    split at h
    · rcases ih _ _ _ h with h1 | ⟨t', ht', rfl⟩
      · exact Or.inl h1
      · exact Or.inr ⟨t', List.mem_cons_of_mem _ ht', rfl⟩
    · rcases ih _ _ _ h with h1 | ⟨t', ht', rfl⟩
      · rcases List.mem_append.mp h1 with h2 | h2
        · exact Or.inl h2
        · simp only [List.mem_singleton] at h2
          exact Or.inr ⟨t, List.mem_cons_self _ _, h2⟩
      · exact Or.inr ⟨t', List.mem_cons_of_mem _ ht', rfl⟩

/-- The facts a single loop iteration guarantees about each event it
appends: the recorded snippet is the stripped 120-character window of its
date match, and an all-day event has equal start and end. -/
def FromMatch (cleaned : List Char) (m : Nat × Nat × DateParts) (ev : XEvent) : Prop :=
  ev.extracted_from =
    String.mk (stripWS (sliceL cleaned (m.1 - 120) (min cleaned.length (m.2.1 + 120)))) ∧
  (ev.allDay = true → ev.start = ev.end_) ∧
  (ev.allDay = true →
    searchRange (sliceL cleaned m.2.1 (min cleaned.length (m.2.1 + 120))) = none ∧
    searchSingle (sliceL cleaned m.2.1 (min cleaned.length (m.2.1 + 120))) = none)

theorem resolveTimes_ok {dm : DateParts} {afterText : List Char}
    {r : String × String × Bool} (h : resolveTimes dm afterText = Except.ok r) :
    r.2.2 = true → r.1 = r.2.1 := by
  unfold resolveTimes at h
  split at h
  · split at h
    · cases h
      intro hd
      cases hd
    · exact absurd h (by simp)
  · split at h
    · split at h
      · cases h
        intro hd
        cases hd
      · exact absurd h (by simp)
    · cases h
      intro hd
      rfl

theorem resolveTimes_allday {dm : DateParts} {afterText : List Char}
    {r : String × String × Bool} (h : resolveTimes dm afterText = Except.ok r) :
    r.2.2 = true → searchRange afterText = none ∧ searchSingle afterText = none := by
  unfold resolveTimes at h
  split at h
  · split at h
    · cases h
      intro hd
      cases hd
    · exact absurd h (by simp)
  · rename_i hsr
    split at h
    · split at h
      · cases h
        intro hd
        cases hd
      · exact absurd h (by simp)
    · rename_i hss
      cases h
      intro _
      exact ⟨hsr, hss⟩

theorem stepMatch_mem {cleaned : List Char} {acc : List XEvent}
    {seen : List String} {m : Nat × Nat × DateParts} {out : List XEvent × List String}
    (h : stepMatch cleaned acc seen m = Except.ok out) :
    ∀ ev, ev ∈ out.1 → ev ∈ acc ∨ FromMatch cleaned m ev := by
  unfold stepMatch at h
  split at h
  · split at h
    · rename_i r hr
      injection h with h2
      subst h2
      intro ev hev
      rcases emitTitles_mem _ _ _ _ hev with h1 | ⟨t, _, rfl⟩
      · exact Or.inl h1
      · exact Or.inr ⟨rfl, fun hd => by rw [resolveTimes_ok hr hd],
          fun hd => resolveTimes_allday hr hd⟩
    · exact absurd h (by simp)
  · injection h with h2
    subst h2
    exact fun ev hev => Or.inl hev

theorem runMatches_mem {cleaned : List Char} :
    ∀ (ms : List (Nat × Nat × DateParts)) (acc : List XEvent)
      (seen : List String) (out : List XEvent) (ev : XEvent),
      runMatches cleaned ms acc seen = Except.ok out → ev ∈ out →
      ev ∈ acc ∨ ∃ m, m ∈ ms ∧ FromMatch cleaned m ev := by
  intro ms
  induction ms with
  | nil =>
    intro acc seen out ev h hev
    cases h
    exact Or.inl hev
  | cons m ms ih =>
    intro acc seen out ev h hev
    simp only [runMatches] at h
    cases hs : stepMatch cleaned acc seen m with
    | ok x =>
      rw [hs] at h
      rcases ih _ _ _ _ h hev with h1 | ⟨m', hm', hfm⟩
      · rcases stepMatch_mem hs _ h1 with h2 | h2
        · exact Or.inl h2
        · exact Or.inr ⟨m, List.mem_cons_self _ _, h2⟩
      · exact Or.inr ⟨m', List.mem_cons_of_mem _ hm', hfm⟩
    | error e =>
      rw [hs] at h
      cases h

/-! ## Claim C1 (amended theorem) -/

/-- Claim C1 as amended: an event with `allDay = true` always has
`start = end` (and so does a single-time event); when a time range is
found, the first-written time becomes `start` and the second `end` with no
reordering, so `start <= end` holds when the range is written
earlier-time-first (as in "7:00 PM - 9:00 PM") but fails for a reversed
range (see the counterexample). -/
theorem extract_allDay_start_eq_end :
    (∀ (t : String) (evs : List XEvent) (ev : XEvent),
      extract_deadlines_from_text t = Except.ok evs → ev ∈ evs →
      ev.allDay = true → ev.start = ev.end_) ∧
    Except.map (List.map fun e => (e.start, e.end_))
      (extract_deadlines_from_text "Final exam on December 12, 2024 7:00 PM - 9:00 PM") =
      Except.ok [("2024-12-12T19:00:00", "2024-12-12T21:00:00")] ∧
    Except.map (List.map fun e => (e.start, e.end_))
      (extract_deadlines_from_text "HW due March 5, 2024 at 7:00 PM") =
      Except.ok [("2024-03-05T19:00:00", "2024-03-05T19:00:00")] := by
  refine ⟨fun t evs ev hex hev hd => ?_, rfl, rfl⟩
  unfold extract_deadlines_from_text at hex
  dsimp only at hex
  rcases runMatches_mem _ _ _ _ _ hex hev with h1 | ⟨m, _, hfm⟩
  · simp at h1
  · exact hfm.2.1 hd

/-- Witness for the amended claim C1 at a concrete all-day extraction. -/
theorem extract_allDay_start_eq_end_witness :
    extract_deadlines_from_text "HW due Mar 5, 2024" =
      Except.ok [⟨"HW due", "Assignment", "2024-03-05T00:00:00", "2024-03-05T00:00:00",
        true, "HW due Mar 5, 2024"⟩] ∧
    XEvent.start ⟨"HW due", "Assignment", "2024-03-05T00:00:00", "2024-03-05T00:00:00",
        true, "HW due Mar 5, 2024"⟩ =
      XEvent.end_ ⟨"HW due", "Assignment", "2024-03-05T00:00:00", "2024-03-05T00:00:00",
        true, "HW due Mar 5, 2024"⟩ := by
  refine ⟨rfl, ?_⟩
  exact extract_allDay_start_eq_end.1 "HW due Mar 5, 2024" _ _ rfl
    (List.mem_singleton.mpr rfl) rfl

/-! ## Claim C2 (amended theorem) -/

/-- Claim C2 as amended: time detection for a date occurrence searches
exactly the 120 characters strictly after that date match — never text
before the date and never text beyond the window — so an event is all-day
exactly when no time-range and no single-time token occurs in that window;
in particular a later date's time inside the window does attach (see the
counterexample).  The first conjunct states it for every extraction: every
all-day event's date match has a trailing window free of `RANGE_RE` and
`SINGLE_TIME_RE` matches.  The concrete conjuncts: a second clause whose
only time lies beyond the 120-character window leaves the first event
all-day, and a time written before its date is not picked up. -/
theorem extract_time_window :
    (∀ (t : String) (evs : List XEvent) (ev : XEvent),
      extract_deadlines_from_text t = Except.ok evs → ev ∈ evs →
      ev.allDay = true →
      ∃ m, m ∈ dateScan (ignoreSub (clean_text t).data) 0 ∧
        searchRange (sliceL (ignoreSub (clean_text t).data) m.2.1
          (min (ignoreSub (clean_text t).data).length (m.2.1 + 120))) = none ∧
        searchSingle (sliceL (ignoreSub (clean_text t).data) m.2.1
          (min (ignoreSub (clean_text t).data).length (m.2.1 + 120))) = none) ∧
    Except.map (List.map XEvent.allDay)
      (extract_deadlines_from_text (String.mk ("HW due March 5, 2024. ".data ++
        List.replicate 125 'x' ++ " Exam on March 10, 2024 7:00 PM".data))) =
      Except.ok [true, false] ∧
    Except.map (List.map XEvent.allDay)
      (extract_deadlines_from_text "7:00 PM on March 5, 2024") = Except.ok [true] := by
  refine ⟨fun t evs ev hex hev hd => ?_, rfl, rfl⟩
  unfold extract_deadlines_from_text at hex
  dsimp only at hex
  rcases runMatches_mem _ _ _ _ _ hex hev with h1 | ⟨m, hm, hfm⟩
  · simp at h1
  · exact ⟨m, hm, hfm.2.2 hd⟩

/-- Witness for the amended claim C2 at a concrete all-day extraction. -/
theorem extract_time_window_witness :
    extract_deadlines_from_text "HW due Mar 7, 2024" =
      Except.ok [⟨"HW due", "Assignment", "2024-03-07T00:00:00", "2024-03-07T00:00:00",
        true, "HW due Mar 7, 2024"⟩] ∧
    ∃ m, m ∈ dateScan (ignoreSub (clean_text "HW due Mar 7, 2024").data) 0 ∧
      searchRange (sliceL (ignoreSub (clean_text "HW due Mar 7, 2024").data) m.2.1
        (min (ignoreSub (clean_text "HW due Mar 7, 2024").data).length (m.2.1 + 120))) = none ∧
      searchSingle (sliceL (ignoreSub (clean_text "HW due Mar 7, 2024").data) m.2.1
        (min (ignoreSub (clean_text "HW due Mar 7, 2024").data).length (m.2.1 + 120))) = none := by
  refine ⟨rfl, ?_⟩
  exact extract_time_window.1 "HW due Mar 7, 2024" _ _ rfl
    (List.mem_singleton.mpr rfl) rfl

/-! ## Claim C9 -/

theorem sliceL_chunk (l : List Char) (a b : Nat) :
    ∃ pre post, pre ++ sliceL l a b ++ post = l := by
  refine ⟨(l.take b).take a, l.drop b, ?_⟩
  unfold sliceL
  rw [List.take_append_drop, List.take_append_drop]

theorem stripWS_chunk (m : List Char) : ∃ pre post, pre ++ stripWS m ++ post = m := by
  obtain ⟨t, ht⟩ := stripTailBy_append (p := isSpaceC) (m.dropWhile isSpaceC)
  refine ⟨m.takeWhile isSpaceC, t, ?_⟩
  show m.takeWhile isSpaceC ++ stripTailBy isSpaceC (m.dropWhile isSpaceC) ++ t = m
  rw [List.append_assoc, ht, List.takeWhile_append_dropWhile]

/-- Claim C9 counterexample: the claim says `extracted_from` is recorded
verbatim as the 120-character context window; but extractor.py line 116
strips the window (`.strip()`), so when the character 120 positions before
the date match is a space the recorded text differs from the window.  Here
the only date match spans positions 121-134 of the normalized text, the
window is `cleaned[1:134]`, which begins with a space, and the recorded
`extracted_from` is that window with the space removed. -/
theorem extracted_from_not_window_cex :
    dateScan (ignoreSub (clean_text (String.mk ("b ".data ++ List.replicate 119 'c' ++
        "March 5, 2024".data))).data) 0 = [(121, 134, ⟨3, 5, 2024⟩)] ∧
    sliceL (ignoreSub (clean_text (String.mk ("b ".data ++ List.replicate 119 'c' ++
        "March 5, 2024".data))).data) (121 - 120) (min 134 (134 + 120)) =
      ' ' :: (List.replicate 119 'c' ++ "March 5, 2024".data) ∧
    Except.map (List.map XEvent.extracted_from)
      (extract_deadlines_from_text (String.mk ("b ".data ++ List.replicate 119 'c' ++
        "March 5, 2024".data))) =
      Except.ok [String.mk (List.replicate 119 'c' ++ "March 5, 2024".data)] ∧
    (String.mk (List.replicate 119 'c' ++ "March 5, 2024".data) ==
      String.mk (' ' :: (List.replicate 119 'c' ++ "March 5, 2024".data))) = false := by
  exact ⟨rfl, rfl, rfl, by decide⟩

/-- Claim C9 as amended: `extracted_from` is the 120-character context
window of the date match with surrounding whitespace stripped, taken from
the normalized text after section-heading erasure; it therefore occurs
verbatim (contiguously) in that heading-erased normalized text — though
not necessarily verbatim in the pre-erasure normalized text, and not
always equal to the un-stripped window (see the counterexample). -/
theorem extracted_from_occurs_in_cleaned :
    ∀ (t : String) (evs : List XEvent) (ev : XEvent),
      extract_deadlines_from_text t = Except.ok evs → ev ∈ evs →
      ∃ pre post, pre ++ ev.extracted_from.data ++ post =
        ignoreSub (clean_text t).data := by
  intro t evs ev hex hev
  unfold extract_deadlines_from_text at hex
  dsimp only at hex
  rcases runMatches_mem _ _ _ _ _ hex hev with h1 | ⟨m, _, hfm⟩
  · simp at h1
  · rw [hfm.1]
    show ∃ pre post, pre ++ stripWS (sliceL (ignoreSub (clean_text t).data) _ _) ++ post = _
    obtain ⟨p1, q1, hpq1⟩ := stripWS_chunk (sliceL (ignoreSub (clean_text t).data)
      (m.1 - 120) (min (ignoreSub (clean_text t).data).length (m.2.1 + 120)))
    obtain ⟨p2, q2, hpq2⟩ := sliceL_chunk (ignoreSub (clean_text t).data)
      (m.1 - 120) (min (ignoreSub (clean_text t).data).length (m.2.1 + 120))
    refine ⟨p2 ++ p1, q1 ++ q2, ?_⟩
    have hassoc : (p2 ++ p1) ++ stripWS (sliceL (ignoreSub (clean_text t).data)
        (m.1 - 120) (min (ignoreSub (clean_text t).data).length (m.2.1 + 120))) ++
        (q1 ++ q2) = p2 ++ ((p1 ++ stripWS (sliceL (ignoreSub (clean_text t).data)
        (m.1 - 120) (min (ignoreSub (clean_text t).data).length (m.2.1 + 120))) ++ q1) ++ q2) := by
      simp [List.append_assoc]
    rw [hassoc, hpq1, ← List.append_assoc]
    exact hpq2

/-- Witness for the amended claim C9 at a concrete extraction. -/
theorem extracted_from_occurs_in_cleaned_witness :
    extract_deadlines_from_text "HW due Mar 6, 2024" =
      Except.ok [⟨"HW due", "Assignment", "2024-03-06T00:00:00", "2024-03-06T00:00:00",
        true, "HW due Mar 6, 2024"⟩] ∧
    ∃ pre post, pre ++ (XEvent.extracted_from ⟨"HW due", "Assignment",
        "2024-03-06T00:00:00", "2024-03-06T00:00:00", true, "HW due Mar 6, 2024"⟩).data ++
      post = ignoreSub (clean_text "HW due Mar 6, 2024").data := by
  refine ⟨rfl, ?_⟩
  exact extracted_from_occurs_in_cleaned "HW due Mar 6, 2024" _ _ rfl
    (List.mem_singleton.mpr rfl)

/-! ## Claim C5: deduplication -/

/-- The deduplication key of an emitted event, reconstructed from its
fields exactly as extractor.py line 181 computes it before emitting. -/
def keyOf (ev : XEvent) : String := dedupKey ev.title ev.start

theorem emitTitles_nodup {sIso eIso : String} {aD : Bool} {snip : String} :
    ∀ (ts : List (List Char)) (acc : List XEvent) (seen : List String),
      (acc.map keyOf).Nodup → (∀ k ∈ acc.map keyOf, k ∈ seen) →
      ((emitTitles sIso eIso aD snip ts acc seen).1.map keyOf).Nodup ∧
      (∀ k ∈ (emitTitles sIso eIso aD snip ts acc seen).1.map keyOf,
        k ∈ (emitTitles sIso eIso aD snip ts acc seen).2) := by
  intro ts
  induction ts with
  | nil =>
    intro acc seen h1 h2
    exact ⟨h1, h2⟩
  | cons t ts ih =>
    intro acc seen h1 h2
    simp only [emitTitles]
    split
    · exact ih acc seen h1 h2
    · rename_i hseen
      apply ih
      · rw [List.map_append, List.nodup_append]
        refine ⟨h1, by simp, ?_⟩
        intro k hk hk2
        simp only [List.map_cons, List.map_nil, List.mem_singleton] at hk2
        subst hk2
        have hmem : dedupKey (String.mk (collapseWS t)) sIso ∈ seen := h2 _ hk
        exact hseen (by simpa using hmem)
      · intro k hk
        rw [List.map_append] at hk
        rcases List.mem_append.mp hk with hk | hk
        · exact List.mem_append_left _ (h2 _ hk)
        · simp only [List.map_cons, List.map_nil, List.mem_singleton] at hk
          subst hk
          exact List.mem_append_right _ (by simp [keyOf])

theorem stepMatch_nodup {cleaned : List Char} {acc : List XEvent}
    {seen : List String} {m : Nat × Nat × DateParts} {out : List XEvent × List String}
    (h : stepMatch cleaned acc seen m = Except.ok out)
    (h1 : (acc.map keyOf).Nodup) (h2 : ∀ k ∈ acc.map keyOf, k ∈ seen) :
    (out.1.map keyOf).Nodup ∧ ∀ k ∈ out.1.map keyOf, k ∈ out.2 := by
  unfold stepMatch at h
  split at h
  · split at h
    · injection h with h3
      subst h3
      exact emitTitles_nodup _ _ _ h1 h2
    · exact absurd h (by simp)
  · injection h with h3
    subst h3
    exact ⟨h1, h2⟩

theorem runMatches_nodup {cleaned : List Char} :
    ∀ (ms : List (Nat × Nat × DateParts)) (acc : List XEvent)
      (seen : List String) (out : List XEvent),
      runMatches cleaned ms acc seen = Except.ok out →
      (acc.map keyOf).Nodup → (∀ k ∈ acc.map keyOf, k ∈ seen) →
      (out.map keyOf).Nodup := by
  intro ms
  induction ms with
  | nil =>
    intro acc seen out h h1 h2
    cases h
    exact h1
  | cons m ms ih =>
    intro acc seen out h h1 h2
    simp only [runMatches] at h
    cases hs : stepMatch cleaned acc seen m with
    | ok x =>
      rw [hs] at h
      obtain ⟨hx1, hx2⟩ := stepMatch_nodup hs h1 h2
      exact ih _ _ _ h hx1 hx2
    | error e =>
      rw [hs] at h
      cases h

/-- Claim C5: within one extraction run no two returned events share the
deduplication key `lowercase(title) + "_" + start_iso[:10]`; a later
occurrence with an already-emitted key is discarded, never emitted. -/
theorem extract_dedup_pairwise :
    ∀ (t : String) (evs : List XEvent),
      extract_deadlines_from_text t = Except.ok evs →
      List.Pairwise (fun a b => dedupKey a.title a.start ≠ dedupKey b.title b.start) evs := by
  intro t evs hex
  unfold extract_deadlines_from_text at hex
  dsimp only at hex
  have hnd : (evs.map keyOf).Nodup :=
    runMatches_nodup _ _ _ _ hex (by simp) (by simp)
  have hp : (evs.map keyOf).Pairwise (fun a b => a ≠ b) := hnd
  rw [List.pairwise_map] at hp
  exact hp

/-- Witness for claim C5 on a concrete two-event extraction. -/
theorem extract_dedup_pairwise_witness :
    List.Pairwise (fun a b : XEvent => dedupKey a.title a.start ≠ dedupKey b.title b.start)
      [⟨"Quiz 1", "Quiz", "2024-03-10T00:00:00", "2024-03-10T00:00:00", true,
        "Quiz 1, Quiz 2: March 10, 2024"⟩,
       ⟨"Quiz 2", "Quiz", "2024-03-10T00:00:00", "2024-03-10T00:00:00", true,
        "Quiz 1, Quiz 2: March 10, 2024"⟩] := by
  exact extract_dedup_pairwise "Quiz 1, Quiz 2: March 10, 2024" _ rfl

/-! ## Trimming facts for the amended claim C3 -/

theorem dropWhile_head_not {p : Char → Bool} :
    ∀ (l : List Char) (c : Char), (l.dropWhile p).head? = some c → p c = false := by
  intro l
  induction l with
  | nil => intro c h; simp at h
  | cons a as ih =>
    intro c h
    by_cases hp : p a = true
    · rw [List.dropWhile_cons, if_pos hp] at h
      exact ih c h
    · rw [List.dropWhile_cons, if_neg hp] at h
      simp only [List.head?, Option.some.injEq] at h
      subst h
      simpa using hp

theorem stripBothBy_idem (p : Char → Bool) (l : List Char) :
    stripBothBy p (stripBothBy p l) = stripBothBy p l := by
  unfold stripBothBy stripHeadBy
  have h1 : (stripTailBy p (l.dropWhile p)).dropWhile p =
      stripTailBy p (l.dropWhile p) := by
    cases hst : stripTailBy p (l.dropWhile p) with
    | nil => rfl
    | cons c cs =>
      rcases stripTailBy_head (p := p) (l.dropWhile p) with h | h
      · rw [h] at hst
        cases hst
      · rw [hst] at h
        have hc : p c = false := dropWhile_head_not _ c h.symm
        simp [List.dropWhile_cons, hc]
  rw [h1, stripTailBy_idem]

/-! ## Claim C3 (amended theorem) -/

/-- Claim C3 as amended: the pre-expansion title candidate is never empty
(an empty candidate defaults to the literal "Assignment", as the
end-to-end run in the last conjunct shows) and multi-title expansion
always yields at least one candidate, each being either the unsplit
candidate or a segment trimmed of surrounding spaces/hyphens/colons; but
such a trimmed segment can be the empty string — a segment whose
whitespace-stripped length exceeds 2 yet consists only of spaces, hyphens
and colons is kept by the filter and trims to nothing (see the
counterexample) — so "title is never empty" does not hold of emitted
events. -/
theorem titleRaw_default_nonempty :
    (∀ before : List Char, 0 < (deriveTitleRaw before).length) ∧
    (∀ raw : List Char, 0 < (expandTitles raw).length) ∧
    (∀ (raw t : List Char), t ∈ expandTitles raw →
      t = raw ∨ stripBothBy isPunctC t = t) ∧
    Except.map (List.map XEvent.title) (extract_deadlines_from_text "March 5, 2024") =
      Except.ok ["Assignment"] := by
  refine ⟨fun before => ?_, fun raw => ?_, fun raw t ht => ?_, rfl⟩
  · unfold deriveTitleRaw
    dsimp only
    split
    · simp
    · rename_i h
      simpa [List.length_pos] using h
  · unfold expandTitles
    dsimp only
    split
    · simp
    · rename_i h
      simpa [List.length_pos] using h
  · unfold expandTitles at ht
    dsimp only at ht
    split at ht
    · simp only [List.mem_singleton] at ht
      exact Or.inl ht
    · right
      obtain ⟨u, _, rfl⟩ := List.mem_map.mp ht
      exact stripBothBy_idem _ _

/-- Witness for the amended claim C3: the all-punctuation segment "-:-:"
is kept by the filter and trims to the empty title. -/
theorem titleRaw_default_nonempty_witness :
    ([] : List Char) ∈ expandTitles "-:-:".data ∧
    (([] : List Char) = "-:-:".data ∨ stripBothBy isPunctC [] = []) := by
  refine ⟨by decide, ?_⟩
  exact titleRaw_default_nonempty.2.2.1 "-:-:".data [] (by decide)

/-! ## Claim C10 -/

theorem applyUpdates_id (us : List (String × PVal)) :
    ∀ e, (applyUpdates e us).id = e.id := by
  induction us with
  | nil => intro e; rfl
  | cons kv us ih =>
    intro e
    unfold applyUpdates
    rw [List.foldl_cons]
    have hrec := ih (if kv.1 = "id" then e
      else { e with fields := setField e.fields kv.1 kv.2 })
    unfold applyUpdates at hrec
    rw [hrec]
    split <;> rfl

theorem updateFirst_length (eid : Int) (us : List (String × PVal)) :
    ∀ l : List PEvent, (updateFirst eid us l).length = l.length := by
  intro l
  induction l with
  | nil => rfl
  | cons e rest ih =>
    unfold updateFirst
    split
    · simp
    · simpa using ih

theorem updateFirst_id (eid : Int) (us : List (String × PVal)) :
    ∀ (l : List PEvent) (i : Nat),
      ((updateFirst eid us l)[i]?).map PEvent.id = (l[i]?).map PEvent.id := by
  intro l
  induction l with
  | nil => intro i; rfl
  | cons e rest ih =>
    intro i
    unfold updateFirst
    split
    · cases i with
      | zero => simp [applyUpdates_id]
      | succ j => simp
    · cases i with
      | zero => simp
      | succ j => simpa using ih j

theorem updateFirst_other (eid : Int) (us : List (String × PVal)) :
    ∀ (l : List PEvent) (i : Nat), i ≠ l.findIdx (fun e => e.id == eid) →
      (updateFirst eid us l)[i]? = l[i]? := by
  intro l
  induction l with
  | nil => intro i _; rfl
  | cons e rest ih =>
    intro i hi
    rw [List.findIdx_cons] at hi
    unfold updateFirst
    by_cases he : (e.id == eid) = true
    · rw [if_pos he]
      rw [he] at hi
      simp only [cond_true] at hi
      cases i with
      | zero => exact absurd rfl hi
      | succ j => simp
    · rw [if_neg he]
      rw [Bool.not_eq_true] at he
      rw [he] at hi
      simp only [cond_false] at hi
      cases i with
      | zero => simp
      | succ j =>
        have : j ≠ rest.findIdx (fun e => e.id == eid) := by
          intro hj
          exact hi (by rw [hj])
        simpa using ih j this

/-- Claim C10: `update_event` never changes an event's identity or the
shape of the store — the target's `id` survives even an updates dict
carrying an "id" key, every event other than the (first) target is
untouched, no event is added or removed, and an absent ID gives `False`
with the store unchanged. -/
theorem update_event_frame (events : List PEvent) (eid : Int)
    (updates : List (String × PVal)) :
    ((update_event events eid updates).1 = false →
      (update_event events eid updates).2 = events) ∧
    ((∀ e ∈ events, e.id ≠ eid) → (update_event events eid updates).1 = false) ∧
    (update_event events eid updates).2.length = events.length ∧
    (∀ i : Nat, (((update_event events eid updates).2)[i]?).map PEvent.id =
      (events[i]?).map PEvent.id) ∧
    (∀ i : Nat, i ≠ events.findIdx (fun e => e.id == eid) →
      ((update_event events eid updates).2)[i]? = events[i]?) := by
  cases hf : get_event_by_id events eid with
  | none =>
    have hupd : update_event events eid updates = (false, events) := by
      unfold update_event
      rw [hf]
    rw [hupd]
    exact ⟨fun _ => rfl, fun _ => rfl, rfl, fun i => rfl, fun i _ => rfl⟩
  | some x =>
    have hupd : update_event events eid updates =
        (true, updateFirst eid updates events) := by
      unfold update_event
      rw [hf]
    rw [hupd]
    refine ⟨fun hc => absurd hc (by simp), fun hall => ?_, updateFirst_length _ _ _,
      updateFirst_id _ _ _, updateFirst_other _ _ _⟩
    have hf2 : events.find? (fun e => e.id == eid) = some x := hf
    have hmem : x ∈ events := List.mem_of_find?_eq_some hf2
    have hx := List.find?_some hf2
    exact absurd (by simpa using hx) (hall x hmem)

/-- Witness for claim C10 on a concrete store. -/
theorem update_event_frame_witness :
    ((update_event [PEvent.mk 1 [("title", PVal.str "a")], PEvent.mk 2 []] 1
      [("id", PVal.int 99), ("title", PVal.str "b")]).2)[1]? =
      [PEvent.mk 1 [("title", PVal.str "a")], PEvent.mk 2 []][1]? ∧
    (update_event [] 5 []).2 = ([] : List PEvent) ∧
    (update_event [PEvent.mk 7 []] 5 []).1 = false := by
  refine ⟨?_, ?_, ?_⟩
  · exact (update_event_frame _ _ _).2.2.2.2 1 (by decide)
  · exact (update_event_frame [] 5 []).1 rfl
  · exact (update_event_frame [PEvent.mk 7 []] 5 []).2.1 (by decide)
